import Mathlib

/-!
Verification of the VectorLaw embedding/RAG core.

This file shallowly embeds the core of `src/utils/embed.py` (chunking,
boilerplate trimming, vector-store building) and `src/utils/rag.py`
(store loading and cosine-similarity querying) and proves the frozen
claims about them.

Modelling conventions:
* Python floats / numpy float32 scalars are modelled by exact rationals
  (`Rat`).  The claims settled here concern selection, ordering,
  metadata resolution and store structure, none of which depends on
  floating-point rounding at the inputs used.
* `np.linalg.norm` computes a square root, which is not rational; it is
  taken as an explicit function parameter `normF` of the query model.
  All theorems are proved for every such function, so in particular for
  the Euclidean norm.
* `np.argsort` (ascending) with its default kind is numpy's introsort,
  which is NOT stable; the executable model `argsort` below fixes one
  admissible tie order (the stable one, which numpy's insertion sort
  produces on the short arrays of the concrete examples).  No claim
  theorem relies on the model's tie order: the C1 theorem quantifies
  over every ascending index permutation an argsort could return, and
  the other claims' conclusions are tie-order independent.
* Python `str` values that the code only passes around are `String`;
  text that the code inspects character by character (the trimmer) is
  modelled as `List Char`.
-/

/- ## Scalars -/

/-- Scalar type standing for Python/numpy floating point numbers. -/
abbrev Q := Rat

/-- The literal `1e-8` added to the cosine denominator in
`query_document` (src/utils/rag.py line 79).  The IEEE double closest
to 1e-8 differs from the rational 1/10^8 by a relative 2e-17; no claim
below depends on the exact value. -/
def eps : Q := 1 / 100000000

/- ## numpy arrays (shape and dtype only, values exact) -/

/-- numpy scalar dtypes occurring in the pipeline. -/
inductive DType
  | float32
  | float64
deriving DecidableEq, Repr

/-- A 2-D numpy array: a dtype tag plus its rows. -/
structure NpMatrix where
  dtype : DType
  data : List (List Q)
deriving DecidableEq, Repr

/-- `np.array(x, dtype=np.float32)` applied to a 2-D numeric array:
the shape and (for already-float32 input, exactly) the values are kept
and the dtype is forced to float32.  Used by `load_vector_store`
(src/utils/rag.py line 34). -/
def npArrayFloat32 (m : NpMatrix) : NpMatrix := { m with dtype := .float32 }

/- ## Store data model (src/utils/rag.py, src/utils/embed.py) -/

/-- A Python dict key as used for chunk collections: an int or a str. -/
inductive PyKey
  | i (n : Int)
  | s (str : String)
deriving DecidableEq, Repr

/-- Chunk metadata: either a dict with optional `chunk_index` and
`text` fields (absent fields make `.get` fall back to its default in
src/utils/rag.py lines 113-114), or a non-dict value whose `str()`
form is recorded. -/
inductive ChunkMeta
  | mdict (chunk_index : Option Int) (text : Option String)
  | raw (str : String)
deriving DecidableEq, Repr

/-- The chunk collection of one document: the code tolerates a list, a
dict, or anything else (src/utils/rag.py lines 89-109). -/
inductive ChunkColl
  | list (l : List ChunkMeta)
  | dict (l : List (PyKey × ChunkMeta))
  | other
deriving DecidableEq, Repr

/-- One document entry of the vector store. -/
structure DocEntry where
  embeddings : NpMatrix
  chunks : ChunkColl
deriving DecidableEq, Repr

/-- The vector store: a Python dict in insertion order, modelled as an
association list from document name to entry. -/
abbrev Store := List (String × DocEntry)

/-- `store.get(doc_name)`: first association for the name. -/
def pyLookup (store : Store) (name : String) : Option DocEntry :=
  (store.find? (fun p => p.1 == name)).map Prod.snd

/-- One element of the result list of `query_document`
(src/utils/rag.py lines 120-126). -/
structure QueryResult where
  chunk_index : Int
  similarity : Q
  text : String
deriving DecidableEq, Repr

/-- The exception raised by `query_document` for a missing document
name (src/utils/rag.py line 65). -/
inductive QueryError
  | keyError (msg : String)
deriving DecidableEq, Repr

/- ## Stable insertion sort (model of np.argsort / Python sorted) -/

/-- Insert `a` before the first element `b` with `le a b`. -/
def ordInsert (le : α → α → Bool) (a : α) : List α → List α
  | [] => [a]
  | b :: l => if le a b then a :: b :: l else b :: ordInsert le a l

/-- Stable insertion sort: equal elements keep their input order. -/
def insSort (le : α → α → Bool) : List α → List α
  | [] => []
  | a :: l => ordInsert le a (insSort le l)

/- ## Chunk-metadata resolution (src/utils/rag.py lines 86-118) -/

/-- Python dict membership/subscript for chunk collections: first
association for the key (Python dicts have unique keys). -/
def pyGet (d : List (PyKey × ChunkMeta)) (k : PyKey) : Option ChunkMeta :=
  (d.find? (fun p => p.1 == k)).map Prod.snd

/-- `int(x) if str(x).isdigit() else float('inf')` on a key `x`
(src/utils/rag.py line 103); `none` stands for the infinity. -/
def keyNumVal : PyKey → Option Int
  | .i n => if 0 ≤ n then some n else none
  | .s st => (st.toNat?).map Int.ofNat

/-- Comparison of the numeric key values, `none` acting as +infinity. -/
def keyLe (a b : PyKey) : Bool :=
  match keyNumVal a, keyNumVal b with
  | some x, some y => x ≤ y
  | some _, none => true
  | none, some _ => false
  | none, none => true

/-- The tolerant chunk-metadata resolution of src/utils/rag.py lines
87-109: list access by position; dict access by int key, then by
string key, then positionally through the numerically sorted key list;
anything else (or an out-of-range position) is skipped (`none`). -/
def resolveChunk (chunks : ChunkColl) (idx : Nat) : Option ChunkMeta :=
  match chunks with
  | .list l => if h : idx < l.length then some (l.get ⟨idx, h⟩) else none
  | .dict d =>
    match pyGet d (.i (Int.ofNat idx)) with
    | some m => some m
    | none =>
      match pyGet d (.s (toString idx)) with
      | some m => some m
      | none =>
        let chunk_keys := insSort keyLe (d.map Prod.fst)
        if h : idx < chunk_keys.length then pyGet d (chunk_keys.get ⟨idx, h⟩)
        else none
  | .other => none

/-- Extraction of the `(chunk_index, text)` pair from resolved
metadata (src/utils/rag.py lines 111-118): dict fields with defaults
`idx` and `""`, non-dict values coerced by `str()`. -/
def extractMeta (m : ChunkMeta) (idx : Nat) : Int × String :=
  match m with
  | .mdict ci t => (ci.getD (Int.ofNat idx), t.getD "")
  | .raw s => (Int.ofNat idx, s)

/- ## Similarity and selection (src/utils/rag.py lines 76-81) -/

/-- Dot product, `doc_embeddings @ query_vector` on one row (the two
lists have equal length in every use; `zip` truncates otherwise, where
numpy would raise a shape error). -/
def dot (a b : List Q) : Q := ((a.zip b).map (fun p => p.1 * p.2)).sum

/-- The similarity vector of src/utils/rag.py line 79:
`(doc_embeddings @ q) / (doc_norms * query_norm + 1e-8)` with the norm
function `normF` standing for `np.linalg.norm`. -/
def simList (normF : List Q → Q) (rows : List (List Q)) (qv : List Q) : List Q :=
  rows.map (fun r => dot r qv / (normF r * normF qv + eps))

/-- `similarities.argsort()`: the index list `0..n-1` sorted by
ascending similarity.  numpy's default sort is unstable, so the tie
order is unspecified; this executable model fixes the stable order
(what numpy's small-array insertion sort produces).  Theorems that
depend on tie order are stated for every ascending permutation
instead of this model's particular output. -/
def argsort (sims : List Q) : List Nat :=
  insSort (fun i j => decide (sims.getD i 0 ≤ sims.getD j 0)) (List.range sims.length)

/-- Python slice `l[-k:]`.  For `k = 0` this is `l[0:]`, the whole
list (`-0 == 0`), which is what line 81 does for `top_k = 0`. -/
def pyTailSlice (l : List α) (k : Nat) : List α :=
  if k = 0 then l else l.drop (l.length - k)

/-- `similarities.argsort()[-top_k:][::-1]` (src/utils/rag.py line 81). -/
def topIndices (sims : List Q) (top_k : Nat) : List Nat :=
  (pyTailSlice (argsort sims) top_k).reverse

/-- `sorted(store.keys())` (src/utils/rag.py line 64). -/
def sortedNames (store : Store) : List String :=
  insSort (fun a b => decide (a ≤ b)) (store.map Prod.fst)

/-- The result-building loop of src/utils/rag.py lines 83-127 over the
selected indices: resolve each index's metadata (skipping unresolved
ones) and emit `{chunk_index, similarity, text}`. -/
def resultsFor (sims : List Q) (chunks : ChunkColl) (idxs : List Nat) :
    List QueryResult :=
  idxs.filterMap (fun idx =>
    (resolveChunk chunks idx).map (fun m =>
      { chunk_index := (extractMeta m idx).1
        similarity := sims.getD idx 0
        text := (extractMeta m idx).2 }))

/-- `query_document` of src/utils/rag.py lines 39-127.  The OpenAI
call producing the query embedding is external; the embedding is taken
directly as `query_embedding`, and `np.linalg.norm` as `normF`. -/
def query_document (normF : List Q → Q) (store : Store) (doc_name : String)
    (query_embedding : List Q) (top_k : Nat) :
    Except QueryError (List QueryResult) :=
  match pyLookup store doc_name with
  | none =>
    .error (.keyError ("Document \x27" ++ doc_name ++ "\x27 not in vector store. Available names: "
      ++ String.intercalate ", " (sortedNames store)))
  | some entry =>
    let rows := entry.embeddings.data
    if rows.length = 0 then .ok []
    else
      let sims := simList normF rows query_embedding
      .ok (resultsFor sims entry.chunks (topIndices sims top_k))

/-- State-passing form of `query_document`: the Python function reads
the store dict but never assigns into it, so its explicit-state
embedding returns the store unchanged. -/
def query_document_state (normF : List Q → Q) (store : Store) (doc_name : String)
    (query_embedding : List Q) (top_k : Nat) :
    Except QueryError (List QueryResult) × Store :=
  (query_document normF store doc_name query_embedding top_k, store)

/- ## Chunker (src/utils/embed.py lines 22-52)

`chunk_text` splits the text with `text.split()` and works on the word
list from then on.  We take the word list itself as input: `split()`
output consists of nonempty whitespace-free words, on which the
single-space join used for each chunk is injective, so chunks are
represented as word lists.  The `" ".join(...).strip()` of a slice of
such words is nonempty exactly when the slice is, which is how the
`if chunk:` test is rendered. -/

/-- `max(1, chunk_size - chunk_overlap)` (src/utils/embed.py line 50);
Python's possibly negative difference and Nat truncated subtraction
agree under the outer `max 1`. -/
def stepSize (chunk_size chunk_overlap : Nat) : Nat :=
  max 1 (chunk_size - chunk_overlap)

/-- The `while start < total_words` loop of src/utils/embed.py lines
42-50, recursing on the advancing start index. -/
def chunkLoop (words : List String) (chunk_size chunk_overlap : Nat) (start : Nat) :
    List (List String) :=
  if h : start < words.length then
    let endIdx := min words.length (start + chunk_size)
    let chunk := (words.drop start).take (endIdx - start)
    let tail :=
      if words.length ≤ endIdx then []
      else chunkLoop words chunk_size chunk_overlap (start + stepSize chunk_size chunk_overlap)
    if chunk = [] then tail else chunk :: tail
  else []
termination_by words.length - start
decreasing_by
  have h1 : 1 ≤ stepSize chunk_size chunk_overlap := le_max_left _ _
  omega

/-- `chunk_text` of src/utils/embed.py lines 22-52 on the word list of
the text (`words = text.split()`; `if not words: return []`). -/
def chunk_text (words : List String) (chunk_size chunk_overlap : Nat) :
    List (List String) :=
  if words = [] then [] else chunkLoop words chunk_size chunk_overlap 0

/-- Fuel-indexed rendering of the same loop: `fuel` bounds the number
of iterations still allowed, making the claimed termination bound (at
most `words.length` iterations) a provable statement. -/
def chunkLoopFuel (words : List String) (chunk_size chunk_overlap : Nat) :
    Nat → Nat → List (List String)
  | 0, _ => []
  | fuel + 1, start =>
    if start < words.length then
      let endIdx := min words.length (start + chunk_size)
      let chunk := (words.drop start).take (endIdx - start)
      let tail :=
        if words.length ≤ endIdx then []
        else chunkLoopFuel words chunk_size chunk_overlap fuel
          (start + stepSize chunk_size chunk_overlap)
      if chunk = [] then tail else chunk :: tail
    else []

/-- Concatenation of the chunks with each successor's `chunk_overlap`
leading words removed — the reconstruction operation of the spec's
chunker property. -/
def reconstructOverlap (chunk_overlap : Nat) : List (List String) → List String
  | [] => []
  | c :: cs => c ++ (cs.map (List.drop chunk_overlap)).flatten

/- ## Vector store builder (src/utils/embed.py lines 163-181, 271-326) -/

/-- One element of the flat `chunk_records` list
(src/utils/embed.py lines 276-283). -/
structure ChunkRecord where
  doc_name : String
  chunk_index : Nat
  text : String
deriving DecidableEq, Repr

/-- `embed_chunk_batch` (src/utils/embed.py lines 163-181): one API
call per batch, returning embeddings in input order; the external
endpoint is the function parameter `embedFn`. -/
def embed_chunk_batch (embedFn : String → List Q) (batch : List ChunkRecord) :
    List (List Q) :=
  batch.map (fun r => embedFn r.text)

/-- The batching loop of src/utils/embed.py lines 294-300:
`for start in range(0, len(records), bs)` slices batches and zips them
with their embeddings.  `bs = 0` makes Python's `range` raise and is
never exercised (the CLI default is 64); it returns `[]` here. -/
def embedBatches (embedFn : String → List Q) (bs : Nat) (records : List ChunkRecord) :
    List (ChunkRecord × List Q) :=
  if records = [] ∨ bs = 0 then []
  else
    ((records.take bs).zip (embed_chunk_batch embedFn (records.take bs)))
      ++ embedBatches embedFn bs (records.drop bs)
termination_by records.length
decreasing_by
  rename_i h
  simp only [not_or] at h
  cases records with
  | nil => exact absurd rfl h.1
  | cons a l => simp [List.length_drop]; omega

/-- The per-document accumulator entry before numpy conversion
(src/utils/embed.py lines 308-318). -/
structure RawEntry where
  embeddings : List (List Q)
  chunks : List ChunkMeta
deriving DecidableEq, Repr

/-- `vector_store.setdefault(name, fresh)` followed by the two
appends (src/utils/embed.py lines 307-318): append to the existing
entry, or add a fresh entry at the end (dict insertion order). -/
def addRecord (name : String) (emb : List Q) (meta : ChunkMeta) :
    List (String × RawEntry) → List (String × RawEntry)
  | [] => [(name, ⟨[emb], [meta]⟩)]
  | (n, e) :: rest =>
    if n = name then (n, ⟨e.embeddings ++ [emb], e.chunks ++ [meta]⟩) :: rest
    else (n, e) :: addRecord name emb meta rest

/-- The chunk-metadata dict `{"chunk_index": ..., "text": ...}`
appended for one enriched record (src/utils/embed.py lines 313-318). -/
def metaOf (p : ChunkRecord × List Q) : ChunkMeta :=
  .mdict (some (Int.ofNat p.1.chunk_index)) (some p.1.text)

/-- The regrouping loop over `enriched_records`
(src/utils/embed.py lines 306-318). -/
def groupRecords (enriched : List (ChunkRecord × List Q)) : List (String × RawEntry) :=
  enriched.foldl (fun st p => addRecord p.1.doc_name p.2 (metaOf p) st) []

/-- The loop body of src/utils/embed.py lines 272-283 for one
document: chunk it, skip it entirely when no chunks came out
(`if not chunks: continue`), and otherwise enumerate the chunks into
records.  The single-space join turns word-list chunks back into the
stored chunk strings. -/
def docBlock (d : String × List String) (S O : Nat) : List ChunkRecord :=
  let chunks := (chunk_text d.2 S O).map (String.intercalate " ")
  if chunks = [] then []
  else chunks.enum.map (fun p => ChunkRecord.mk d.1 p.1 p.2)

/-- The flat `chunk_records` accumulation of src/utils/embed.py lines
271-283 across all documents. -/
def chunkRecordsOf (documents : List (String × List String)) (S O : Nat) :
    List ChunkRecord :=
  (documents.map (fun d => docBlock d S O)).flatten

/-- The store-building core of `main` (src/utils/embed.py lines
271-326): chunk, bail out with no store when no chunks exist, embed in
batches, regroup per document, convert each embedding list to a
float32 numpy array.  Documents are the name/word-list pairs after the
(optional) trimming stage; the CLI and file I/O around this core are
external. -/
def buildStore (documents : List (String × List String)) (S O bs : Nat)
    (embedFn : String → List Q) : Option Store :=
  let chunk_records := chunkRecordsOf documents S O
  if chunk_records = [] then none
  else
    some ((groupRecords (embedBatches embedFn bs chunk_records)).map
      (fun p => (p.1, ⟨⟨.float32, p.2.embeddings⟩, .list p.2.chunks⟩)))

/- ## Loader (src/utils/rag.py lines 16-36) -/

/-- `pickle.dump` then `pickle.load`: the round trip reconstructs an
equal value. -/
def pickleRoundTrip (store : Store) : Store := store

/-- `load_vector_store` (src/utils/rag.py lines 16-36) after the
deserialization: every entry's embedding field is coerced by
`np.array(-, dtype=np.float32)`.  The missing-file branch raises
before any store value exists and is outside this model. -/
def load_vector_store (store : Store) : Store :=
  store.map (fun p => (p.1, { p.2 with embeddings := npArrayFloat32 p.2.embeddings }))

/- ## Boilerplate trimmer (src/utils/embed.py lines 55-144)

Python `str` is modelled as `List Char` here, since the trimmer works
on the character level.  Two external facilities are function
parameters: `re.sub(pat, '', s, flags=IGNORECASE|MULTILINE)` is
`reSub` applied to the pattern literal and the text (the regex engine
is external to the repository), and the Unicode case mapping of
`str.lower` is `pyLower`.  Every theorem below holds for every such
pair of functions. -/

/-- The `head_patterns` literals of src/utils/embed.py lines 68-80. -/
def head_patterns : List String :=
  ["^(?:.*Canada\\.ca.*\\n)\x7b1,5\x7d",
   "^Skip to main content[\\n\\r]+",
   "^Skip to [^\\n]+\\n",
   "^Language selection\\n",
   "^(?:Français|fr|Gouvernement du Canada)[\\n/ ]+",
   "^Search[^\\n]*\\n",
   "^Menu\\n",
   "^Main\\n",
   "^[\\w \\-/]+\\nJobs and the workplace\\n",
   "^(?:[\\w ,/&-]+\\n)\x7b3,10\x7dYou are here:[^\\n]*\\n",
   "^From:[^\\n]+\\n News release[\\n]*"]

/-- The `tail_patterns` literals of src/utils/embed.py lines 83-96. -/
def tail_patterns : List String :=
  ["\\nReport a problem or mistake on this page.*$",
   "\\nDate modified:[^\\n]*$",
   "\\n(?:Footer|End of Document|Contact us)[^\\n]*$",
   "\\nThis page was last updated.*$",
   "\\nFor media:[\\s\\S]+?(?=\\n\\S)",
   "\\nMedia Relations[\\s\\S]+?(?=\\n\\S|\\Z)",
   "(?:\\n[\\w \\-.,/:\\(\\)@]+)\x7b6,\x7d[\\s\\n]*$",
   "\\nSearch for related information by keyword:[\\s\\S]+?(?=\\n\\S|\\Z)",
   "\\nPage details[\\s\\S]+?(?=\\n\\S|\\Z)",
   "\\nAbout this site[\\s\\S]+?(?=\\n\\S|\\Z)",
   "\\nGovernment of Canada[\\s\\S]+?(?=\\n\\S|\\Z)",
   "\\nAll contacts[\\s\\S]+?(?=\\n\\S|\\Z)"]

/-- The `NON_CONTENT_KEYWORDS` list of src/utils/embed.py lines 122-134. -/
def NON_CONTENT_KEYWORDS : List String :=
  ["You are here:",
   "Main Menu",
   "Search Canada.ca",
   "Back to top",
   "Date modified:",
   "Report a problem or mistake on this page",
   "Contact us",
   "Page details",
   "About this site",
   "Government of Canada",
   "All contacts"]

/-- Python's whitespace test, as used by `str.strip()` with no
argument (CPython `Py_UNICODE_ISSPACE`): tab through carriage return
(0x09-0x0D), the separators 0x1C-0x1F, space, NEL 0x85, NBSP 0xA0,
Ogham space 0x1680, the 0x2000-0x200A spaces, the line/paragraph
separators 0x2028/0x2029, 0x202F, 0x205F and the ideographic space
0x3000. -/
def pyIsSpace (c : Char) : Bool :=
  c == ' ' || c == '\t' || c == '\n' || c.val == 11 || c.val == 12 ||
  c == '\r' || c.val == 28 || c.val == 29 || c.val == 30 || c.val == 31 ||
  c.val == 133 || c.val == 160 || c.val == 5760 ||
  (decide (8192 ≤ c.val) && decide (c.val ≤ 8202)) ||
  c.val == 8232 || c.val == 8233 || c.val == 8239 || c.val == 8287 ||
  c.val == 12288

/-- The line boundaries of Python's `str.splitlines()`: `\n`, `\r`
(`\r\n` counting as a single boundary, handled in `splitLinesAux`),
`\v` (0x0B), `\f` (0x0C), the file/group/record separators
0x1C-0x1E, NEL 0x85 and the line/paragraph separators 0x2028/0x2029. -/
def isLineBreak (c : Char) : Bool :=
  c == '\n' || c == '\r' || c.val == 11 || c.val == 12 || c.val == 28 ||
  c.val == 29 || c.val == 30 || c.val == 133 || c.val == 8232 || c.val == 8233

/-- Python `s.strip()`: drop Python whitespace from both ends. -/
def pyStrip (s : List Char) : List Char :=
  ((s.dropWhile pyIsSpace).reverse.dropWhile pyIsSpace).reverse

/-- The field structure of `s.splitlines()`: split at every line
boundary, `\r\n` counting as one; the final (possibly empty) field
is still present here and removed by `pySplitlines`. -/
def splitLinesAux : List Char → List (List Char)
  | [] => [[]]
  | c :: t =>
    if isLineBreak c then
      match t with
      | [] => [[], []]
      | c2 :: t2 =>
        if c = '\r' ∧ c2 = '\n' then [] :: splitLinesAux t2
        else [] :: splitLinesAux (c2 :: t2)
    else
      match splitLinesAux t with
      | [] => [[c]]
      | h :: r => (c :: h) :: r

/-- Python `s.splitlines()` (src/utils/embed.py line 136): the fields
of `splitLinesAux`, except that a final empty field — the string is
empty or ends in a line boundary — is dropped. -/
def pySplitlines (s : List Char) : List (List Char) :=
  let fields := splitLinesAux s
  if fields.getLast? = some [] then fields.dropLast else fields

/-- Auxiliary splitter at `'\n'` boundaries only.  It agrees with
`splitLinesAux` on text whose only line-boundary character is `'\n'`
(lemma `splitLinesAux_newline_only` below) and is used to
characterize the trimmer's worst case on such text. -/
def splitNl : List Char → List (List Char)
  | [] => [[]]
  | c :: t =>
    if c = '\n' then [] :: splitNl t
    else
      match splitNl t with
      | [] => [[c]]
      | h :: r => (c :: h) :: r

/-- `"\n".join(lines)` (src/utils/embed.py line 144): interpose one
newline between consecutive lines. -/
def joinNl : List (List Char) → List Char
  | [] => []
  | [l] => l
  | l :: ls => l ++ '\n' :: joinNl ls

/-- `any(k.lower() in line.lower() for k in NON_CONTENT_KEYWORDS)`
(src/utils/embed.py lines 138, 141): case-insensitive substring test
against the keyword list, with Python's full-Unicode `str.lower` as
the function parameter `pyLower`. -/
def containsKw (pyLower : List Char → List Char) (line : List Char) : Bool :=
  NON_CONTENT_KEYWORDS.any
    (fun k => decide ((pyLower k.toList) <:+: (pyLower line)))

/-- The head-pattern loop of src/utils/embed.py lines 101-105: apply
each rule to the current text, accept the first whose result is more
than 8 characters shorter, and stop there (`break`). -/
def applyHeadRules (reSub : String → List Char → List Char) :
    List String → List Char → List Char
  | [], s => s
  | p :: ps, s =>
    let s2 := reSub p s
    if s2.length < s.length - 8 then s2 else applyHeadRules reSub ps s

/-- One pass of the tail-pattern loop (src/utils/embed.py lines
108-113 and, flag ignored, 115-119): fold over the rules, accepting
each result that is more than 8 characters shorter and recording in
the flag whether anything was accepted. -/
def applyTailPass (reSub : String → List Char → List Char) (ps : List String)
    (acc : List Char × Bool) : List Char × Bool :=
  ps.foldl
    (fun a p =>
      let s2 := reSub p a.1
      if s2.length < a.1.length - 8 then (s2, true) else a)
    acc

/-- `trim_non_content` of src/utils/embed.py lines 55-144: strip, try
the head rules (first acceptable one wins), run the tail rules (twice
when the first pass trimmed anything), then strip leading and trailing
keyword lines from the `splitlines` fields and re-join with `'\n'`. -/
def trim_non_content (reSub : String → List Char → List Char)
    (pyLower : List Char → List Char) (text : List Char) : List Char :=
  let cleaned := pyStrip text
  let cleaned2 := applyHeadRules reSub head_patterns cleaned
  let tp := applyTailPass reSub tail_patterns (cleaned2, false)
  let cleaned3 := if tp.2 then (applyTailPass reSub tail_patterns (tp.1, false)).1 else tp.1
  let lines := pySplitlines cleaned3
  let lines2 := lines.dropWhile (containsKw pyLower)
  let lines3 := (lines2.reverse.dropWhile (containsKw pyLower)).reverse
  pyStrip (joinNl lines3)

/- ## Lemmas about the stable insertion sort -/

/-- The strict order in which the reversed last-`k` slice of the
stable ascending argsort comes out: smaller similarity first, ties by
ascending index. -/
def lexLt (sims : List Q) (i j : Nat) : Prop :=
  sims.getD i 0 < sims.getD j 0 ∨ (sims.getD i 0 = sims.getD j 0 ∧ i < j)

instance (sims : List Q) (i j : Nat) : Decidable (lexLt sims i j) := by
  unfold lexLt; infer_instance

lemma mem_ordInsert {le : α → α → Bool} {a x : α} {l : List α} :
    x ∈ ordInsert le a l ↔ x = a ∨ x ∈ l := by
  induction l with
  | nil => simp [ordInsert]
  | cons b t ih =>
    by_cases h : le a b = true
    · simp [ordInsert, h]
    · simp [ordInsert, h, ih]
      tauto

lemma ordInsert_perm (le : α → α → Bool) (a : α) (l : List α) :
    List.Perm (ordInsert le a l) (a :: l) := by
  induction l with
  | nil => exact List.Perm.refl _
  | cons b t ih =>
    by_cases h : le a b = true
    · simp [ordInsert, h]
    · simp only [ordInsert, h, if_false]
      exact (ih.cons b).trans (List.Perm.swap a b t)

lemma insSort_perm (le : α → α → Bool) (l : List α) :
    List.Perm (insSort le l) l := by
  induction l with
  | nil => exact List.Perm.refl _
  | cons a t ih => exact (ordInsert_perm le a (insSort le t)).trans (ih.cons a)

lemma ordInsert_lex (sims : List Q) (a : Nat) (L : List Nat)
    (hL : L.Pairwise (lexLt sims)) (ha : ∀ b ∈ L, a < b) :
    (ordInsert (fun i j => decide (sims.getD i 0 ≤ sims.getD j 0)) a L).Pairwise
      (lexLt sims) := by
  induction L with
  | nil => simp [ordInsert, List.pairwise_singleton]
  | cons b t ih =>
    rcases List.pairwise_cons.mp hL with ⟨hbt, ht⟩
    by_cases h : sims.getD a 0 ≤ sims.getD b 0
    · simp only [ordInsert, h, decide_True, if_true]
      refine List.pairwise_cons.mpr ⟨?_, hL⟩
      intro c hc
      have hac : a < c := ha c hc
      have hle : sims.getD a 0 ≤ sims.getD c 0 := by
        rcases List.mem_cons.mp hc with hceq | hc2
        · rw [hceq]; exact h
        · rcases hbt c hc2 with h2 | ⟨h2, _⟩
          · exact h.trans h2.le
          · exact h.trans h2.le
      rcases lt_or_eq_of_le hle with h' | h'
      · exact Or.inl h'
      · exact Or.inr ⟨h', hac⟩
    · have hdec : decide (sims.getD a 0 ≤ sims.getD b 0) = false :=
        decide_eq_false h
      simp only [ordInsert, hdec, if_false]
      refine List.pairwise_cons.mpr
        ⟨?_, ih ht (fun c hc => ha c (List.mem_cons_of_mem b hc))⟩
      intro c hc
      rcases mem_ordInsert.mp hc with hceq | hc2
      · rw [hceq]
        exact Or.inl (not_le.mp h)
      · exact hbt c hc2

lemma insSort_range_lex (sims : List Q) (l : List Nat) (hl : l.Pairwise (· < ·)) :
    (insSort (fun i j => decide (sims.getD i 0 ≤ sims.getD j 0)) l).Pairwise
      (lexLt sims) := by
  induction l with
  | nil => simp [insSort]
  | cons a t ih =>
    rcases List.pairwise_cons.mp hl with ⟨hat, ht⟩
    refine ordInsert_lex sims a _ (ih ht) ?_
    intro b hb
    exact hat b ((insSort_perm _ t).mem_iff.mp hb)

/- ## Lemmas about argsort and the top-k slice -/

lemma argsort_perm (sims : List Q) :
    List.Perm (argsort sims) (List.range sims.length) :=
  insSort_perm _ _

lemma mem_argsort {sims : List Q} {i : Nat} :
    i ∈ argsort sims ↔ i < sims.length := by
  rw [(argsort_perm sims).mem_iff, List.mem_range]

lemma argsort_length (sims : List Q) : (argsort sims).length = sims.length := by
  rw [(argsort_perm sims).length_eq, List.length_range]

lemma argsort_lex (sims : List Q) : (argsort sims).Pairwise (lexLt sims) :=
  insSort_range_lex sims _ (List.pairwise_lt_range _)

lemma argsort_sorted_le (sims : List Q) :
    (argsort sims).Pairwise (fun i j => sims.getD i 0 ≤ sims.getD j 0) := by
  refine (argsort_lex sims).imp ?_
  intro i j hij
  rcases hij with h | ⟨h, _⟩
  · exact h.le
  · exact h.le

lemma mem_topIndices {sims : List Q} {k i : Nat} :
    i ∈ topIndices sims k → i < sims.length := by
  intro h
  rw [topIndices, List.mem_reverse] at h
  have hmem : i ∈ argsort sims := by
    unfold pyTailSlice at h
    split at h
    · exact h
    · exact List.mem_of_mem_drop h
  exact mem_argsort.mp hmem

lemma topIndices_length (sims : List Q) (k : Nat) :
    (topIndices sims k).length
      = min (if k = 0 then sims.length else k) sims.length := by
  rw [topIndices, List.length_reverse]
  unfold pyTailSlice
  split
  · simp [argsort_length]
  · simp only [List.length_drop, argsort_length]
    omega

lemma topIndices_pairwise (sims : List Q) (k : Nat) :
    (topIndices sims k).Pairwise (fun i j => lexLt sims j i) := by
  rw [topIndices, List.pairwise_reverse]
  have hsub : List.Sublist (pyTailSlice (argsort sims) k) (argsort sims) := by
    unfold pyTailSlice
    split
    · exact List.Sublist.refl _
    · exact List.drop_sublist _ _
  exact (argsort_lex sims).sublist hsub

lemma topIndices_max {sims : List Q} {k j : Nat}
    (hj : j < sims.length) (hnot : j ∉ topIndices sims k) :
    ∀ i ∈ topIndices sims k, lexLt sims j i := by
  intro i hi
  rw [topIndices, List.mem_reverse] at hi hnot
  have hjarg : j ∈ argsort sims := mem_argsort.mpr hj
  unfold pyTailSlice at hi hnot
  by_cases hk : k = 0
  · simp only [hk, if_true] at hnot
    exact absurd hjarg hnot
  · simp only [hk, if_false] at hi hnot
    have hsplit := List.take_append_drop ((argsort sims).length - k) (argsort sims)
    have hjtake : j ∈ (argsort sims).take ((argsort sims).length - k) := by
      rcases List.mem_append.mp (by rw [hsplit]; exact hjarg) with h | h
      · exact h
      · exact absurd h hnot
    have hpw := argsort_lex sims
    rw [← hsplit, List.pairwise_append] at hpw
    exact hpw.2.2 j hjtake i hi

/- The next four lemmas describe the reversed last-`k` slice for an
ARBITRARY output an ascending argsort could produce — any permutation
of `0..n-1` that is ascending in similarity, whatever tie order the
unstable sort picks. -/

lemma tailSliceRev_length (idxs : List Nat) (n k : Nat) (hlen : idxs.length = n) :
    ((pyTailSlice idxs k).reverse).length = min (if k = 0 then n else k) n := by
  rw [List.length_reverse]
  unfold pyTailSlice
  split
  · simp [hlen]
  · simp only [List.length_drop, hlen]
    omega

lemma tailSliceRev_mem {idxs : List Nat} {n k i : Nat}
    (hperm : List.Perm idxs (List.range n)) :
    i ∈ (pyTailSlice idxs k).reverse → i < n := by
  intro h
  rw [List.mem_reverse] at h
  have hmem : i ∈ idxs := by
    unfold pyTailSlice at h
    split at h
    · exact h
    · exact List.mem_of_mem_drop h
  rw [hperm.mem_iff, List.mem_range] at hmem
  exact hmem

lemma tailSliceRev_sorted (sims : List Q) (idxs : List Nat) (k : Nat)
    (hasc : idxs.Pairwise (fun i j => sims.getD i 0 ≤ sims.getD j 0)) :
    ((pyTailSlice idxs k).reverse).Pairwise
      (fun i j => sims.getD j 0 ≤ sims.getD i 0) := by
  rw [List.pairwise_reverse]
  have hsub : List.Sublist (pyTailSlice idxs k) idxs := by
    unfold pyTailSlice
    split
    · exact List.Sublist.refl _
    · exact List.drop_sublist _ _
  exact hasc.sublist hsub

lemma tailSliceRev_max (sims : List Q) {idxs : List Nat} {n k j : Nat}
    (hperm : List.Perm idxs (List.range n))
    (hasc : idxs.Pairwise (fun i j => sims.getD i 0 ≤ sims.getD j 0))
    (hj : j < n) (hnot : j ∉ (pyTailSlice idxs k).reverse) :
    ∀ i ∈ (pyTailSlice idxs k).reverse, sims.getD j 0 ≤ sims.getD i 0 := by
  intro i hi
  rw [List.mem_reverse] at hi hnot
  have hjidx : j ∈ idxs := by
    rw [hperm.mem_iff, List.mem_range]
    exact hj
  unfold pyTailSlice at hi hnot
  by_cases hk : k = 0
  · simp only [hk, if_true] at hnot
    exact absurd hjidx hnot
  · simp only [hk, if_false] at hi hnot
    have hsplit := List.take_append_drop (idxs.length - k) idxs
    have hjtake : j ∈ idxs.take (idxs.length - k) := by
      rcases List.mem_append.mp (by rw [hsplit]; exact hjidx) with h | h
      · exact h
      · exact absurd h hnot
    have hpw := hasc
    rw [← hsplit, List.pairwise_append] at hpw
    exact hpw.2.2 j hjtake i hi

/- ## Generic helper lemmas -/

lemma filterMap_eq_map_of_all {f : α → Option β} {g : α → β} {l : List α}
    (h : ∀ a ∈ l, f a = some (g a)) : l.filterMap f = l.map g := by
  induction l with
  | nil => rfl
  | cons a t ih =>
    rw [List.filterMap_cons, h a (List.mem_cons_self a t), List.map_cons,
      ih (fun x hx => h x (List.mem_cons_of_mem a hx))]

lemma filterMap_congr_mem {f g : α → Option β} {l : List α}
    (h : ∀ a ∈ l, f a = g a) : l.filterMap f = l.filterMap g := by
  induction l with
  | nil => rfl
  | cons a t ih =>
    rw [List.filterMap_cons, List.filterMap_cons, h a (List.mem_cons_self a t),
      ih (fun x hx => h x (List.mem_cons_of_mem a hx))]

lemma pairwise_filterMap_of {R : α → α → Prop} {S : β → β → Prop}
    {f : α → Option β} {l : List α} (hp : l.Pairwise R)
    (h : ∀ a b, R a b → ∀ x, f a = some x → ∀ y, f b = some y → S x y) :
    (l.filterMap f).Pairwise S := by
  induction l with
  | nil => simp
  | cons a t ih =>
    rcases List.pairwise_cons.mp hp with ⟨hat, ht⟩
    rw [List.filterMap_cons]
    cases hfa : f a with
    | none => exact ih ht
    | some x =>
      refine List.pairwise_cons.mpr ⟨?_, ih ht⟩
      intro y hy
      rcases List.mem_filterMap.mp hy with ⟨b, hb, hfb⟩
      exact h a b (hat b hb) x hfa y hfb

lemma ordInsert_le_sorted {α : Type _} [LinearOrder α] (a : α) (l : List α)
    (hl : l.Pairwise (· ≤ ·)) :
    (ordInsert (fun x y => decide (x ≤ y)) a l).Pairwise (· ≤ ·) := by
  induction l with
  | nil => simp [ordInsert, List.pairwise_singleton]
  | cons b t ih =>
    rcases List.pairwise_cons.mp hl with ⟨hbt, ht⟩
    by_cases h : a ≤ b
    · simp only [ordInsert, h, decide_True, if_true]
      refine List.pairwise_cons.mpr ⟨?_, hl⟩
      intro c hc
      rcases List.mem_cons.mp hc with hceq | hc2
      · rw [hceq]; exact h
      · exact h.trans (hbt c hc2)
    · have hdec : decide (a ≤ b) = false := decide_eq_false h
      simp only [ordInsert, hdec, if_false]
      refine List.pairwise_cons.mpr ⟨?_, ih ht⟩
      intro c hc
      rcases mem_ordInsert.mp hc with hceq | hc2
      · rw [hceq]
        exact (not_le.mp h).le
      · exact hbt c hc2

lemma insSort_le_sorted {α : Type _} [LinearOrder α] (l : List α) :
    (insSort (fun x y => decide (x ≤ y)) l).Pairwise (· ≤ ·) := by
  induction l with
  | nil => simp [insSort]
  | cons a t ih => exact ordInsert_le_sorted a _ ih

/-- C5: `query` for a document name absent from the store raises the
`KeyError` whose message lists every existing document name in sorted
order (src/utils/rag.py lines 62-65), and the store is left unchanged
(the state-passing form returns it as-is).  `sortedNames` really is the
sorted enumeration of the store's keys: it is a permutation of them
and is ascending. -/
theorem C5_missing_document_lists_sorted_names (normF : List Q → Q) (store : Store)
    (doc_name : String) (qe : List Q) (k : Nat)
    (h : pyLookup store doc_name = none) :
    query_document_state normF store doc_name qe k
      = (.error (.keyError ("Document \x27" ++ doc_name
            ++ "\x27 not in vector store. Available names: "
            ++ String.intercalate ", " (sortedNames store))), store)
    ∧ List.Perm (sortedNames store) (store.map Prod.fst)
    ∧ (sortedNames store).Pairwise (· ≤ ·) := by
  refine ⟨?_, insSort_perm _ _, insSort_le_sorted _⟩
  unfold query_document_state query_document
  rw [h]

/-- Witness for C5 at a concrete store with one document `"a"` and the
missing name `"x"`. -/
theorem C5_missing_document_lists_sorted_names_witness :
    (pyLookup [("a", (⟨⟨.float32, [[1]]⟩, .other⟩ : DocEntry))] "x" = none)
    ∧ (query_document_state (fun _ => 1)
          [("a", (⟨⟨.float32, [[1]]⟩, .other⟩ : DocEntry))] "x" [1] 3
        = (.error (.keyError ("Document \x27" ++ "x"
              ++ "\x27 not in vector store. Available names: "
              ++ String.intercalate ", "
                  (sortedNames [("a", (⟨⟨.float32, [[1]]⟩, .other⟩ : DocEntry))]))),
            [("a", (⟨⟨.float32, [[1]]⟩, .other⟩ : DocEntry))])
       ∧ List.Perm (sortedNames [("a", (⟨⟨.float32, [[1]]⟩, .other⟩ : DocEntry))])
           ([("a", (⟨⟨.float32, [[1]]⟩, .other⟩ : DocEntry))].map Prod.fst)
       ∧ (sortedNames [("a", (⟨⟨.float32, [[1]]⟩, .other⟩ : DocEntry))]).Pairwise
           (· ≤ ·)) :=
  ⟨by decide,
   C5_missing_document_lists_sorted_names (fun _ => 1)
     [("a", (⟨⟨.float32, [[1]]⟩, .other⟩ : DocEntry))] "x" [1] 3 (by decide)⟩

lemma simList_length (normF : List Q → Q) (rows : List (List Q)) (qv : List Q) :
    (simList normF rows qv).length = rows.length := List.length_map _ _

lemma query_ok_eq (normF : List Q → Q) (store : Store) (doc_name : String)
    (qe : List Q) (k : Nat) (entry : DocEntry)
    (hlook : pyLookup store doc_name = some entry)
    (hrows : entry.embeddings.data.length ≠ 0) :
    query_document normF store doc_name qe k
      = .ok (resultsFor (simList normF entry.embeddings.data qe) entry.chunks
          (topIndices (simList normF entry.embeddings.data qe) k)) := by
  unfold query_document
  rw [hlook]
  exact if_neg hrows

lemma resultsFor_pairwise (sims : List Q) (chunks : ChunkColl) (k : Nat) :
    (resultsFor sims chunks (topIndices sims k)).Pairwise
      (fun a b => b.similarity ≤ a.similarity) := by
  apply pairwise_filterMap_of (topIndices_pairwise sims k)
  intro i j hij x hx y hy
  rcases Option.map_eq_some'.mp hx with ⟨mi, _, hmi⟩
  rcases Option.map_eq_some'.mp hy with ⟨mj, _, hmj⟩
  have hxs : x.similarity = sims.getD i 0 := by rw [← hmi]
  have hys : y.similarity = sims.getD j 0 := by rw [← hmj]
  rw [hxs, hys]
  rcases hij with h | ⟨h, _⟩
  · exact h.le
  · exact h.le

/-- Store with two chunks whose embeddings are identical (hence whose
similarities tie for every query), used for the C1 counterexample and
witness. -/
def tieStore : Store :=
  [("d", ⟨⟨.float32, [[1], [1]]⟩,
      .list [.mdict (some 0) (some "a"), .mdict (some 1) (some "b")]⟩)]

/-- C1 counterexample: in `tieStore` both chunks have the embedding
`[1]`, so for the query embedding `[1]` the two similarities are
exactly equal.  The claim says the tie is broken in favour of the
lower original index, so `top_k = 1` would have to return chunk 0
(text "a"); the code returns chunk 1 (text "b"), because the last-`k`
slice of the stable ascending argsort keeps the later of two tied
positions.  (With the true Euclidean norm the two similarities are the
same number as well — the rows are identical — so the selection is the
same; `normF` is instantiated with the constant-1 function to stay in
exact arithmetic.) -/
lemma tie_sim_eval : simList (fun _ => 1) [[1], [1]] [1]
    = [(100000000 : Q) / 100000001, (100000000 : Q) / 100000001] := by
  simp [simList, dot, eps]
  norm_num

lemma tie_query_eval : query_document (fun _ => 1) tieStore "d" [1] 1
    = .ok [⟨1, (100000000 : Q) / 100000001, "b"⟩] := by
  rw [query_ok_eq (fun _ => 1) tieStore "d" [1] 1
    ⟨⟨.float32, [[1], [1]]⟩, .list [.mdict (some 0) (some "a"), .mdict (some 1) (some "b")]⟩
    (by decide) (by decide)]
  rw [show (⟨⟨.float32, [[1], [1]]⟩,
      .list [.mdict (some 0) (some "a"), .mdict (some 1) (some "b")]⟩ : DocEntry).embeddings.data
      = [[1], [1]] from rfl]
  rw [tie_sim_eval]
  simp [topIndices, argsort, List.range_succ, insSort, ordInsert, pyTailSlice,
    resultsFor, resolveChunk, extractMeta]

theorem C1_lower_index_tie_counterexample :
    simList (fun _ => 1) [[1], [1]] [1]
        = [(100000000 : Q) / 100000001, (100000000 : Q) / 100000001]
    ∧ query_document (fun _ => 1) tieStore "d" [1] 1
        = .ok [⟨1, (100000000 : Q) / 100000001, "b"⟩] :=
  ⟨tie_sim_eval, tie_query_eval⟩

/-- C1 (amended): the query operation selects the `top_k`
highest-similarity chunk indices and returns the results ordered by
descending similarity; when two chunks have equal similarity, NO
preference for the lower original index is guaranteed — numpy's
default argsort is unstable, so the tie order is unspecified, and in
its stable small-array regime the code in fact returns the higher
index first (see the counterexample).  Formally, for EVERY index list
`idxs` an ascending argsort could produce for the similarity vector —
a permutation of `0..n-1` that is ascending in similarity, covering
every tie order the unstable sort may pick — the reversed last-`k`
slice `pyTailSlice idxs k |>.reverse` taken by line 81: has length
`min top_k n` (all `n` indices for `top_k = 0`), consists of valid
indices, gives every unselected valid index a similarity at most that
of every selected index, and is ordered by descending similarity; and
the result list the query emits carries descending similarities. -/
theorem C1_topk_selection_descending_similarity
    (normF : List Q → Q) (store : Store) (doc_name : String) (qe : List Q)
    (k : Nat) (entry : DocEntry) (res : List QueryResult) (idxs : List Nat)
    (hlook : pyLookup store doc_name = some entry)
    (hrows : entry.embeddings.data.length ≠ 0)
    (hres : query_document normF store doc_name qe k = .ok res)
    (hperm : List.Perm idxs
      (List.range (simList normF entry.embeddings.data qe).length))
    (hasc : idxs.Pairwise (fun i j =>
      (simList normF entry.embeddings.data qe).getD i 0
        ≤ (simList normF entry.embeddings.data qe).getD j 0)) :
    ((pyTailSlice idxs k).reverse).length
        = min (if k = 0 then entry.embeddings.data.length else k)
            entry.embeddings.data.length
    ∧ (∀ i ∈ (pyTailSlice idxs k).reverse, i < entry.embeddings.data.length)
    ∧ (∀ j < entry.embeddings.data.length, j ∉ (pyTailSlice idxs k).reverse →
        ∀ i ∈ (pyTailSlice idxs k).reverse,
          (simList normF entry.embeddings.data qe).getD j 0
            ≤ (simList normF entry.embeddings.data qe).getD i 0)
    ∧ ((pyTailSlice idxs k).reverse).Pairwise (fun i j =>
        (simList normF entry.embeddings.data qe).getD j 0
          ≤ (simList normF entry.embeddings.data qe).getD i 0)
    ∧ res.Pairwise (fun a b => b.similarity ≤ a.similarity) := by
  have hq := query_ok_eq normF store doc_name qe k entry hlook hrows
  rw [hq] at hres
  have hres2 := Except.ok.inj hres
  have hlen : idxs.length = (simList normF entry.embeddings.data qe).length := by
    rw [hperm.length_eq, List.length_range]
  refine ⟨?_, ?_, ?_, tailSliceRev_sorted _ _ _ hasc, ?_⟩
  · rw [tailSliceRev_length idxs
      (simList normF entry.embeddings.data qe).length k hlen, simList_length]
  · intro i hi
    have h := tailSliceRev_mem hperm hi
    rwa [simList_length] at h
  · intro j hj hnot i hi
    exact tailSliceRev_max _ hperm hasc (by rwa [simList_length]) hnot i hi
  · rw [← hres2]
    exact resultsFor_pairwise _ _ _

/-- Witness for the amended C1 at `tieStore` with `top_k = 1`,
instantiating `idxs` with one admissible ascending permutation (the
model argsort's output). -/
theorem C1_topk_selection_descending_similarity_witness :
    (pyLookup tieStore "d" = some ⟨⟨.float32, [[1], [1]]⟩,
        .list [.mdict (some 0) (some "a"), .mdict (some 1) (some "b")]⟩)
    ∧ (([[1], [1]] : List (List Q)).length ≠ 0)
    ∧ (query_document (fun _ => 1) tieStore "d" [1] 1
        = .ok [⟨1, (100000000 : Q) / 100000001, "b"⟩])
    ∧ List.Perm (argsort (simList (fun _ => 1) [[1], [1]] [1]))
        (List.range (simList (fun _ => 1) [[1], [1]] [1]).length)
    ∧ (argsort (simList (fun _ => 1) [[1], [1]] [1])).Pairwise (fun i j =>
        (simList (fun _ => 1) [[1], [1]] [1]).getD i 0
          ≤ (simList (fun _ => 1) [[1], [1]] [1]).getD j 0)
    ∧ (((pyTailSlice (argsort (simList (fun _ => 1) [[1], [1]] [1])) 1).reverse).length
          = min (if (1 : Nat) = 0 then ([[1], [1]] : List (List Q)).length else 1)
              ([[1], [1]] : List (List Q)).length
      ∧ (∀ i ∈ (pyTailSlice (argsort (simList (fun _ => 1) [[1], [1]] [1])) 1).reverse,
          i < ([[1], [1]] : List (List Q)).length)
      ∧ (∀ j < ([[1], [1]] : List (List Q)).length,
          j ∉ (pyTailSlice (argsort (simList (fun _ => 1) [[1], [1]] [1])) 1).reverse →
            ∀ i ∈ (pyTailSlice (argsort (simList (fun _ => 1) [[1], [1]] [1])) 1).reverse,
              (simList (fun _ => 1) [[1], [1]] [1]).getD j 0
                ≤ (simList (fun _ => 1) [[1], [1]] [1]).getD i 0)
      ∧ ((pyTailSlice (argsort (simList (fun _ => 1) [[1], [1]] [1])) 1).reverse).Pairwise
          (fun i j => (simList (fun _ => 1) [[1], [1]] [1]).getD j 0
            ≤ (simList (fun _ => 1) [[1], [1]] [1]).getD i 0)
      ∧ ([⟨1, (100000000 : Q) / 100000001, "b"⟩] : List QueryResult).Pairwise
          (fun a b => b.similarity ≤ a.similarity)) :=
  ⟨by decide, by decide, tie_query_eval,
   argsort_perm (simList (fun _ => 1) [[1], [1]] [1]),
   argsort_sorted_le (simList (fun _ => 1) [[1], [1]] [1]),
   C1_topk_selection_descending_similarity (fun _ => 1) tieStore "d" [1] 1
     ⟨⟨.float32, [[1], [1]]⟩, .list [.mdict (some 0) (some "a"), .mdict (some 1) (some "b")]⟩
     [⟨1, (100000000 : Q) / 100000001, "b"⟩]
     (argsort (simList (fun _ => 1) [[1], [1]] [1]))
     (by decide) (by decide) tie_query_eval
     (argsort_perm (simList (fun _ => 1) [[1], [1]] [1]))
     (argsort_sorted_le (simList (fun _ => 1) [[1], [1]] [1]))⟩

lemma resolveChunk_list_lt {l : List ChunkMeta} {i : Nat} (h : i < l.length) :
    resolveChunk (.list l) i = some (l.getD i (.raw "")) := by
  have hdef : resolveChunk (.list l) i
      = if h : i < l.length then some (l.get ⟨i, h⟩) else none := rfl
  rw [hdef, dif_pos h, List.getD_eq_getElem l _ h]
  simp [List.get_eq_getElem]

/-- C10: with `top_k = 0` the slice `argsort()[-0:]` is the whole
array, so the query returns all `N ≥ 1` chunks ranked by descending
similarity — not the empty list a caller asking for zero results might
expect (src/utils/rag.py line 81). -/
theorem C10_topk_zero_returns_all_chunks
    (normF : List Q → Q) (store : Store) (doc_name : String) (qe : List Q)
    (entry : DocEntry) (ms : List ChunkMeta) (res : List QueryResult)
    (hlook : pyLookup store doc_name = some entry)
    (hchunks : entry.chunks = .list ms)
    (hlen : ms.length = entry.embeddings.data.length)
    (hpos : 0 < entry.embeddings.data.length)
    (hres : query_document normF store doc_name qe 0 = .ok res) :
    res.length = entry.embeddings.data.length
    ∧ res ≠ []
    ∧ res.Pairwise (fun a b => b.similarity ≤ a.similarity) := by
  have hq := query_ok_eq normF store doc_name qe 0 entry hlook (by omega)
  rw [hq] at hres
  have hres' := Except.ok.inj hres
  have hlenres : res.length = entry.embeddings.data.length := by
    rw [← hres', hchunks, resultsFor,
      filterMap_eq_map_of_all (g := fun idx =>
        { chunk_index := (extractMeta (ms.getD idx (.raw "")) idx).1
          similarity := (simList normF entry.embeddings.data qe).getD idx 0
          text := (extractMeta (ms.getD idx (.raw "")) idx).2 })]
    · rw [List.length_map, topIndices_length, simList_length]
      simp
    · intro idx hidx
      have hi : idx < ms.length := by
        have h := mem_topIndices hidx
        rw [simList_length] at h
        omega
      rw [resolveChunk_list_lt hi]
      rfl
  refine ⟨hlenres, ?_, ?_⟩
  · apply List.ne_nil_of_length_pos
    omega
  · rw [← hres']
    exact resultsFor_pairwise _ _ _

/-- Single-chunk store used by the C10 witness. -/
def oneStore : Store :=
  [("d", ⟨⟨.float32, [[1]]⟩, .list [.mdict (some 0) (some "a")]⟩)]

lemma one_query_eval : query_document (fun _ => 1) oneStore "d" [1] 0
    = .ok [⟨0, (100000000 : Q) / 100000001, "a"⟩] := by
  rw [query_ok_eq (fun _ => 1) oneStore "d" [1] 0
    ⟨⟨.float32, [[1]]⟩, .list [.mdict (some 0) (some "a")]⟩ (by decide) (by decide)]
  rw [show (⟨⟨.float32, [[1]]⟩, .list [.mdict (some 0) (some "a")]⟩ : DocEntry).embeddings.data
      = [[1]] from rfl]
  have hsim : simList (fun _ => 1) [[1]] [1] = [(100000000 : Q) / 100000001] := by
    simp [simList, dot, eps]
    norm_num
  rw [hsim]
  simp [topIndices, argsort, List.range_succ, insSort, ordInsert, pyTailSlice,
    resultsFor, resolveChunk, extractMeta]

/-- Witness for C10 at the one-chunk store. -/
theorem C10_topk_zero_returns_all_chunks_witness :
    (pyLookup oneStore "d" = some ⟨⟨.float32, [[1]]⟩, .list [.mdict (some 0) (some "a")]⟩)
    ∧ ((ChunkColl.list [.mdict (some 0) (some "a")])
        = .list [.mdict (some 0) (some "a")])
    ∧ (([.mdict (some 0) (some "a")] : List ChunkMeta).length
        = ([[1]] : List (List Q)).length)
    ∧ (0 < ([[1]] : List (List Q)).length)
    ∧ (query_document (fun _ => 1) oneStore "d" [1] 0
        = .ok [⟨0, (100000000 : Q) / 100000001, "a"⟩])
    ∧ (([⟨0, (100000000 : Q) / 100000001, "a"⟩] : List QueryResult).length
          = ([[1]] : List (List Q)).length
      ∧ ([⟨0, (100000000 : Q) / 100000001, "a"⟩] : List QueryResult) ≠ []
      ∧ ([⟨0, (100000000 : Q) / 100000001, "a"⟩] : List QueryResult).Pairwise
          (fun a b => b.similarity ≤ a.similarity)) :=
  ⟨by decide, rfl, by decide, by decide, one_query_eval,
   C10_topk_zero_returns_all_chunks (fun _ => 1) oneStore "d" [1]
     ⟨⟨.float32, [[1]]⟩, .list [.mdict (some 0) (some "a")]⟩
     [.mdict (some 0) (some "a")]
     [⟨0, (100000000 : Q) / 100000001, "a"⟩]
     (by decide) rfl (by decide) (by decide) one_query_eval⟩

lemma pyLookup_singleton (name : String) (e : DocEntry) :
    pyLookup [(name, e)] name = some e := by
  simp [pyLookup, List.find?]

/-- C2: a store that encodes the chunk metadata
`[{chunk_index:0,text:"a"},{chunk_index:1,text:"b"}]` as a list and one
that encodes it as the string-keyed mapping
`{"0": ..., "1": ...}`, with identical embedding matrices, give
literally identical `query(..., top_k=2)` results (same
`{chunk_index, text}` pairs in the same order, and — in this exact
model — equal similarity scores): the integer-key probe misses, the
stringified-index probe hits the same metadata the list access finds
(src/utils/rag.py lines 89-107). -/
theorem C2_list_and_dict_chunks_equivalent (normF : List Q → Q)
    (rows : List (List Q)) (qe : List Q) (hrows : rows.length = 2) :
    query_document normF
        [("d", ⟨⟨.float32, rows⟩,
          .list [.mdict (some 0) (some "a"), .mdict (some 1) (some "b")]⟩)]
        "d" qe 2
      = query_document normF
          [("d", ⟨⟨.float32, rows⟩,
            .dict [(.s "0", .mdict (some 0) (some "a")),
                   (.s "1", .mdict (some 1) (some "b"))]⟩)]
          "d" qe 2 := by
  have hrows0 : rows.length ≠ 0 := by omega
  rw [query_ok_eq normF _ "d" qe 2
      ⟨⟨.float32, rows⟩, .list [.mdict (some 0) (some "a"), .mdict (some 1) (some "b")]⟩
      (pyLookup_singleton _ _) hrows0,
    query_ok_eq normF _ "d" qe 2
      ⟨⟨.float32, rows⟩, .dict [(.s "0", .mdict (some 0) (some "a")),
        (.s "1", .mdict (some 1) (some "b"))]⟩
      (pyLookup_singleton _ _) hrows0]
  apply congrArg
  unfold resultsFor
  apply filterMap_congr_mem
  intro idx hidx
  have h2 : idx < 2 := by
    have h := mem_topIndices hidx
    rwa [simList_length, hrows] at h
  interval_cases idx
  · have h0 : resolveChunk
        (.list [.mdict (some 0) (some "a"), .mdict (some 1) (some "b")]) 0
        = resolveChunk (.dict [(.s "0", .mdict (some 0) (some "a")),
            (.s "1", .mdict (some 1) (some "b"))]) 0 := by decide
    rw [h0]
  · have h1 : resolveChunk
        (.list [.mdict (some 0) (some "a"), .mdict (some 1) (some "b")]) 1
        = resolveChunk (.dict [(.s "0", .mdict (some 0) (some "a")),
            (.s "1", .mdict (some 1) (some "b"))]) 1 := by decide
    rw [h1]

/-- Witness for C2 at the embedding matrix `[[1],[2]]`. -/
theorem C2_list_and_dict_chunks_equivalent_witness :
    (([[1], [2]] : List (List Q)).length = 2)
    ∧ query_document (fun _ => 1)
        [("d", ⟨⟨.float32, [[1], [2]]⟩,
          .list [.mdict (some 0) (some "a"), .mdict (some 1) (some "b")]⟩)]
        "d" [1] 2
      = query_document (fun _ => 1)
          [("d", ⟨⟨.float32, [[1], [2]]⟩,
            .dict [(.s "0", .mdict (some 0) (some "a")),
                   (.s "1", .mdict (some 1) (some "b"))]⟩)]
          "d" [1] 2 :=
  ⟨by decide,
   C2_list_and_dict_chunks_equivalent (fun _ => 1) [[1], [2]] [1] (by decide)⟩

/- ## Lemmas about the chunker -/

lemma stepSize_pos (S O : Nat) : 0 < stepSize S O := le_max_left _ _

lemma stepSize_eq_of_lt {S O : Nat} (h : O < S) : stepSize S O = S - O := by
  unfold stepSize
  omega

lemma chunkLoopFuel_succ (words : List String) (S O n start : Nat)
    (hs : start < words.length) :
    chunkLoopFuel words S O (n + 1) start
      = (if (words.drop start).take (min words.length (start + S) - start) = []
         then (if words.length ≤ min words.length (start + S) then []
               else chunkLoopFuel words S O n (start + stepSize S O))
         else ((words.drop start).take (min words.length (start + S) - start))
           :: (if words.length ≤ min words.length (start + S) then []
               else chunkLoopFuel words S O n (start + stepSize S O))) := by
  rw [chunkLoopFuel, if_pos hs]

lemma chunkLoop_body (words : List String) (S O start : Nat)
    (hs : start < words.length) :
    chunkLoop words S O start
      = (if (words.drop start).take (min words.length (start + S) - start) = []
         then (if words.length ≤ min words.length (start + S) then []
               else chunkLoop words S O (start + stepSize S O))
         else ((words.drop start).take (min words.length (start + S) - start))
           :: (if words.length ≤ min words.length (start + S) then []
               else chunkLoop words S O (start + stepSize S O))) := by
  rw [chunkLoop, dif_pos hs]

lemma chunkLoop_nil (words : List String) (S O start : Nat)
    (hs : ¬ start < words.length) :
    chunkLoop words S O start = [] := by
  rw [chunkLoop, dif_neg hs]

lemma chunkLoopFuel_eq (words : List String) (S O : Nat) :
    ∀ fuel start, words.length - start ≤ fuel →
      chunkLoopFuel words S O fuel start = chunkLoop words S O start := by
  intro fuel
  induction fuel with
  | zero =>
    intro start h
    have hs : ¬ start < words.length := by omega
    rw [chunkLoop_nil words S O start hs]
    simp [chunkLoopFuel, hs]
  | succ n ih =>
    intro start h
    by_cases hs : start < words.length
    · rw [chunkLoopFuel_succ words S O n start hs, chunkLoop_body words S O start hs]
      rw [ih (start + stepSize S O) (by have := stepSize_pos S O; omega)]
    · rw [chunkLoop_nil words S O start hs]
      simp [chunkLoopFuel, hs]

lemma chunk_nonempty (words : List String) (S start : Nat)
    (hs : start < words.length) (hS : 1 ≤ S) :
    (words.drop start).take (min words.length (start + S) - start) ≠ [] := by
  rw [ne_eq, List.take_eq_nil_iff]
  push_neg
  refine ⟨by omega, ?_⟩
  rw [ne_eq, List.drop_eq_nil_iff]
  omega

lemma chunkLoopFuel_count (words : List String) (S O : Nat) (hO : O < S) :
    ∀ fuel start, words.length - start ≤ fuel → start < words.length →
      (chunkLoopFuel words S O fuel start).length
        = if words.length ≤ start + S then 1
          else (words.length - start - S + (S - O) - 1) / (S - O) + 1 := by
  intro fuel
  induction fuel with
  | zero => intro start h hs; omega
  | succ n ih =>
    intro start h hs
    have hS1 : 1 ≤ S := by omega
    have hstep : stepSize S O = S - O := stepSize_eq_of_lt hO
    rw [chunkLoopFuel_succ words S O n start hs,
      if_neg (chunk_nonempty words S start hs hS1)]
    by_cases hend : words.length ≤ start + S
    · have hend' : words.length ≤ min words.length (start + S) := by omega
      rw [if_pos hend', if_pos hend]
      simp
    · have hend' : ¬ words.length ≤ min words.length (start + S) := by omega
      rw [if_neg hend', if_neg hend, List.length_cons]
      have hlt : start + stepSize S O < words.length := by omega
      rw [ih (start + stepSize S O) (by omega) hlt]
      set d := S - O with hd
      have hdpos : 0 < d := by omega
      set a := words.length - start - S with ha
      have hapos : 1 ≤ a := by omega
      by_cases hcase : words.length ≤ start + stepSize S O + S
      · have had : a ≤ d := by omega
        rw [if_pos hcase]
        have : a + d - 1 = (a - 1) + d := by omega
        rw [this, Nat.add_div_right _ hdpos]
        have : (a - 1) / d = 0 := Nat.div_eq_of_lt (by omega)
        omega
      · have had : d < a := by omega
        rw [if_neg hcase]
        have h1 : words.length - (start + stepSize S O) - S + (S - O) - 1
            = (a - d) + d - 1 := by omega
        rw [h1]
        have h2 : (a - d) + d - 1 = (a - d - 1) + d := by omega
        have h3 : a + d - 1 = (a - 1) + d := by omega
        rw [h2, h3, Nat.add_div_right _ hdpos, Nat.add_div_right _ hdpos]
        have h4 : a - 1 = (a - d - 1) + d := by omega
        rw [h4, Nat.add_div_right _ hdpos]
  
lemma chunkLoopFuel_words_le (words : List String) (S O : Nat) :
    ∀ fuel start, ∀ c ∈ chunkLoopFuel words S O fuel start, c.length ≤ S := by
  intro fuel
  induction fuel with
  | zero => intro start c hc; simp [chunkLoopFuel] at hc
  | succ n ih =>
    intro start c hc
    by_cases hs : start < words.length
    · rw [chunkLoopFuel_succ words S O n start hs] at hc
      have hchunklen : ((words.drop start).take (min words.length (start + S) - start)).length
          ≤ S := by
        rw [List.length_take]
        omega
      split at hc
      · split at hc
        · simp at hc
        · exact ih _ c hc
      · rcases List.mem_cons.mp hc with hceq | hc2
        · rw [hceq]; exact hchunklen
        · split at hc2
          · simp at hc2
          · exact ih _ c hc2
    · rw [show chunkLoopFuel words S O (n + 1) start = [] from by
        rw [chunkLoopFuel]; exact if_neg hs] at hc
      simp at hc

lemma chunkLoopFuel_rec_aux (words : List String) (S O : Nat) (hO : O < S) :
    ∀ fuel start, words.length - start ≤ fuel → start < words.length →
      ((chunkLoopFuel words S O fuel start).map (List.drop O)).flatten
        = words.drop (start + O) := by
  intro fuel
  induction fuel with
  | zero => intro start h hs; omega
  | succ n ih =>
    intro start h hs
    have hS1 : 1 ≤ S := by omega
    have hstep : stepSize S O = S - O := stepSize_eq_of_lt hO
    rw [chunkLoopFuel_succ words S O n start hs,
      if_neg (chunk_nonempty words S start hs hS1)]
    by_cases hend : words.length ≤ start + S
    · have hend' : words.length ≤ min words.length (start + S) := by omega
      rw [if_pos hend']
      have hmin : min words.length (start + S) = words.length := by omega
      rw [hmin]
      have htake : (words.drop start).take (words.length - start) = words.drop start := by
        apply List.take_of_length_le
        rw [List.length_drop]
      rw [htake, List.map_cons, List.map_nil, List.flatten_cons, List.flatten_nil,
        List.append_nil, List.drop_drop]
    · have hend' : ¬ words.length ≤ min words.length (start + S) := by omega
      rw [if_neg hend']
      have hmin : min words.length (start + S) = start + S := by omega
      rw [hmin, show start + S - start = S from by omega, List.map_cons,
        List.flatten_cons,
        ih (start + stepSize S O) (by have := stepSize_pos S O; omega) (by omega),
        List.drop_take S O (words.drop start), List.drop_drop,
        show start + stepSize S O + O = (start + O) + (S - O) from by omega,
        ← List.drop_drop (S - O) (start + O) words]
      exact List.take_append_drop _ _

lemma chunk_text_eq_fuel (words : List String) (S O : Nat) :
    chunk_text words S O = chunkLoopFuel words S O words.length 0 := by
  by_cases hw : words = []
  · subst hw
    rfl
  · rw [chunk_text, if_neg hw, ← chunkLoopFuel_eq words S O words.length 0 (by omega)]

lemma chunk_text_reconstruct (words : List String) (S O : Nat) (hO : O < S)
    (hw : words ≠ []) :
    reconstructOverlap O (chunk_text words S O) = words := by
  have hlen : 0 < words.length := List.length_pos.mpr hw
  rw [chunk_text_eq_fuel]
  obtain ⟨n, hn⟩ : ∃ n, words.length = n + 1 := ⟨words.length - 1, by omega⟩
  rw [hn]
  rw [chunkLoopFuel_succ words S O n 0 hlen,
    if_neg (chunk_nonempty words S 0 hlen (by omega))]
  by_cases hend : words.length ≤ 0 + S
  · have hend' : words.length ≤ min words.length (0 + S) := by omega
    rw [if_pos hend']
    have hmin : min words.length (0 + S) = words.length := by omega
    rw [hmin]
    simp only [reconstructOverlap, List.map_nil, List.flatten_nil, List.append_nil]
    rw [List.drop_zero, Nat.sub_zero]
    exact List.take_of_length_le (le_refl _)
  · have hend' : ¬ words.length ≤ min words.length (0 + S) := by omega
    rw [if_neg hend']
    have hmin : min words.length (0 + S) = 0 + S := by omega
    rw [hmin]
    simp only [reconstructOverlap]
    rw [chunkLoopFuel_rec_aux words S O hO n (0 + stepSize S O)
      (by have := stepSize_pos S O; omega)
      (by have := stepSize_pos S O; have := stepSize_eq_of_lt hO; omega)]
    rw [List.drop_zero, Nat.zero_add, Nat.sub_zero,
      show 0 + stepSize S O + O = S from by have := stepSize_eq_of_lt hO; omega]
    exact List.take_append_drop _ _

/-- C3: for a text with `W ≥ 1` words and `chunk_overlap < chunk_size`,
chunking produces exactly `ceil((W−S)/(S−O))+1` chunks (1 when
`W ≤ S`), every chunk has at most `S` words, and concatenating the
chunks with each successor's first `O` words removed reconstructs the
full word sequence — in particular a prefix of it
(src/utils/embed.py lines 22-52; the ceiling is rendered as
`(W−S+(S−O)−1)/(S−O)` in natural division). -/
theorem C3_chunk_count_width_reconstruction (words : List String) (S O : Nat)
    (hw : 1 ≤ words.length) (hO : O < S) :
    (chunk_text words S O).length
        = (if words.length ≤ S then 1
           else (words.length - S + (S - O) - 1) / (S - O) + 1)
    ∧ (∀ c ∈ chunk_text words S O, c.length ≤ S)
    ∧ reconstructOverlap O (chunk_text words S O) = words
    ∧ reconstructOverlap O (chunk_text words S O) <+: words := by
  have hw' : words ≠ [] := by
    intro hnil
    rw [hnil] at hw
    simp at hw
  have hrec := chunk_text_reconstruct words S O hO hw'
  refine ⟨?_, ?_, hrec, ?_⟩
  · rw [chunk_text_eq_fuel]
    have hcount := chunkLoopFuel_count words S O hO words.length 0 (by omega) (by omega)
    rw [hcount]
    simp
  · intro c hc
    rw [chunk_text_eq_fuel] at hc
    exact chunkLoopFuel_words_le words S O words.length 0 c hc
  · rw [hrec]

lemma chunk_text_example_eval :
    chunk_text ["a", "b", "c"] 2 1 = [["a", "b"], ["b", "c"]] := by
  rw [chunk_text_eq_fuel]
  decide

/-- Witness for C3 on a three-word text with size 2 and overlap 1:
the chunks are `[a b]` and `[b c]`. -/
theorem C3_chunk_count_width_reconstruction_witness :
    (1 ≤ (["a", "b", "c"] : List String).length ∧ 1 < 2)
    ∧ chunk_text ["a", "b", "c"] 2 1 = [["a", "b"], ["b", "c"]]
    ∧ ((chunk_text ["a", "b", "c"] 2 1).length
          = (if (["a", "b", "c"] : List String).length ≤ 2 then 1
             else ((["a", "b", "c"] : List String).length - 2 + (2 - 1) - 1)
               / (2 - 1) + 1)
      ∧ (∀ c ∈ chunk_text ["a", "b", "c"] 2 1, c.length ≤ 2)
      ∧ reconstructOverlap 1 (chunk_text ["a", "b", "c"] 2 1) = ["a", "b", "c"]
      ∧ reconstructOverlap 1 (chunk_text ["a", "b", "c"] 2 1) <+: ["a", "b", "c"]) :=
  ⟨⟨by decide, by decide⟩, chunk_text_example_eval,
   C3_chunk_count_width_reconstruction ["a", "b", "c"] 2 1 (by decide) (by decide)⟩

/-- C4: for every word list and every `chunk_size ≥ 1` and
`chunk_overlap` — including `chunk_overlap ≥ chunk_size` — the
chunking loop terminates within `W` iterations (`W` iterations of fuel
already reproduce it exactly), because the step
`max(1, chunk_size - chunk_overlap)` is positive
(src/utils/embed.py lines 42-50). -/
theorem C4_chunking_terminates_within_W_iterations (words : List String)
    (S O : Nat) (hS : 1 ≤ S) :
    chunkLoopFuel words S O words.length 0 = chunk_text words S O
    ∧ 0 < stepSize S O :=
  ⟨(chunk_text_eq_fuel words S O).symm, stepSize_pos S O⟩

/-- Witness for C4 with overlap 5 greater than size 1: the loop still
terminates and produces one single-word chunk per word. -/
theorem C4_chunking_terminates_within_W_iterations_witness :
    (1 ≤ 1)
    ∧ (chunkLoopFuel ["a", "b"] 1 5 (["a", "b"] : List String).length 0
          = chunk_text ["a", "b"] 1 5
      ∧ 0 < stepSize 1 5)
    ∧ chunkLoopFuel ["a", "b"] 1 5 2 0 = [["a"], ["b"]] :=
  ⟨by decide,
   C4_chunking_terminates_within_W_iterations ["a", "b"] 1 5 (by decide),
   by decide⟩

lemma zip_self_map {α β : Type _} (g : α → β) :
    ∀ l : List α, l.zip (l.map g) = l.map (fun x => (x, g x))
  | [] => rfl
  | a :: t => by
    rw [List.map_cons, List.zip_cons_cons, zip_self_map g t, List.map_cons]

lemma embedBatches_eq (embedFn : String → List Q) {bs : Nat} (hbs : bs ≠ 0) :
    ∀ records, embedBatches embedFn bs records
      = records.map (fun r => (r, embedFn r.text)) := by
  have key : ∀ n : Nat, ∀ records : List ChunkRecord, records.length ≤ n →
      embedBatches embedFn bs records
        = records.map (fun r => (r, embedFn r.text)) := by
    intro n
    induction n with
    | zero =>
      intro records h
      have hnil : records = [] := List.eq_nil_of_length_eq_zero (by omega)
      subst hnil
      rw [embedBatches]
      simp
    | succ n ih =>
      intro records h
      rw [embedBatches]
      by_cases hrec : records = []
      · subst hrec
        simp
      · rw [if_neg (by push_neg; exact ⟨hrec, hbs⟩), embed_chunk_batch, zip_self_map,
          ih (records.drop bs) ?_, ← List.map_append, List.take_append_drop]
        rw [List.length_drop]
        have hpos : 0 < records.length := List.length_pos.mpr hrec
        omega
  intro records
  exact key records.length records (le_refl _)

/-- C7: persisting a builder-produced store and reloading it is the
identity — in particular, every reloaded document's embedding matrix
has dtype float32 and exactly the pre-persist shape
(src/utils/embed.py lines 320-326, src/utils/rag.py lines 16-36). -/
theorem C7_roundtrip_float32_and_shape (documents : List (String × List String))
    (S O bs : Nat) (embedFn : String → List Q) (st : Store)
    (hst : buildStore documents S O bs embedFn = some st) :
    load_vector_store (pickleRoundTrip st) = st
    ∧ (∀ p ∈ load_vector_store (pickleRoundTrip st),
        p.2.embeddings.dtype = .float32)
    ∧ (∀ name, (pyLookup (load_vector_store (pickleRoundTrip st)) name).map
          (fun e => (e.embeddings.data.length, e.embeddings.data.map List.length))
        = (pyLookup st name).map
          (fun e => (e.embeddings.data.length, e.embeddings.data.map List.length))) := by
  have hdt : ∀ p ∈ st, p.2.embeddings.dtype = DType.float32 := by
    intro p hp
    simp only [buildStore] at hst
    split at hst
    · exact absurd hst (by simp)
    · have hst' := Option.some.inj hst
      rw [← hst'] at hp
      rcases List.mem_map.mp hp with ⟨q, _, hq⟩
      rw [← hq]
  have hid : load_vector_store (pickleRoundTrip st) = st := by
    unfold load_vector_store pickleRoundTrip
    conv_rhs => rw [← List.map_id st]
    apply List.map_congr_left
    intro p hp
    have hd := hdt p hp
    rcases p with ⟨n, e⟩
    rcases e with ⟨m, c⟩
    rcases m with ⟨d, rows⟩
    simp only [npArrayFloat32, id]
    simp only at hd
    rw [hd]
  refine ⟨hid, ?_, ?_⟩
  · intro p hp
    rw [hid] at hp
    exact hdt p hp
  · intro name
    rw [hid]

lemma build_example_eval : buildStore [("d", ["a"])] 1 0 1 (fun _ => [1])
    = some [("d", ⟨⟨.float32, [[1]]⟩, .list [.mdict (some 0) (some "a")]⟩)] := by
  have hrec : chunkRecordsOf [("d", ["a"])] 1 0 = [⟨"d", 0, "a"⟩] := by
    unfold chunkRecordsOf docBlock
    simp only [chunk_text_eq_fuel]
    decide
  have hb : buildStore [("d", ["a"])] 1 0 1 (fun _ => [1])
      = if chunkRecordsOf [("d", ["a"])] 1 0 = [] then none
        else some ((groupRecords (embedBatches (fun _ => [1]) 1
            (chunkRecordsOf [("d", ["a"])] 1 0))).map
          (fun p => (p.1, ⟨⟨.float32, p.2.embeddings⟩, .list p.2.chunks⟩))) := rfl
  rw [hb, hrec, if_neg (by decide), embedBatches_eq _ (by decide)]
  decide

/-- Witness for C7 at a one-document, one-chunk build. -/
theorem C7_roundtrip_float32_and_shape_witness :
    (buildStore [("d", ["a"])] 1 0 1 (fun _ => [1])
        = some [("d", ⟨⟨.float32, [[1]]⟩, .list [.mdict (some 0) (some "a")]⟩)])
    ∧ (load_vector_store (pickleRoundTrip
          [("d", ⟨⟨.float32, [[1]]⟩, .list [.mdict (some 0) (some "a")]⟩)])
        = [("d", ⟨⟨.float32, [[1]]⟩, .list [.mdict (some 0) (some "a")]⟩)]
      ∧ (∀ p ∈ load_vector_store (pickleRoundTrip
            [("d", ⟨⟨.float32, [[1]]⟩, .list [.mdict (some 0) (some "a")]⟩)]),
          p.2.embeddings.dtype = .float32)
      ∧ (∀ name, (pyLookup (load_vector_store (pickleRoundTrip
              [("d", ⟨⟨.float32, [[1]]⟩, .list [.mdict (some 0) (some "a")]⟩)])) name).map
            (fun e => (e.embeddings.data.length, e.embeddings.data.map List.length))
          = (pyLookup [("d", ⟨⟨.float32, [[1]]⟩, .list [.mdict (some 0) (some "a")]⟩)]
              name).map
            (fun e => (e.embeddings.data.length, e.embeddings.data.map List.length)))) :=
  ⟨build_example_eval,
   C7_roundtrip_float32_and_shape [("d", ["a"])] 1 0 1 (fun _ => [1])
     [("d", ⟨⟨.float32, [[1]]⟩, .list [.mdict (some 0) (some "a")]⟩)]
     build_example_eval⟩

lemma addRecord_keys (name : String) (emb : List Q) (meta : ChunkMeta)
    (st : List (String × RawEntry)) :
    (addRecord name emb meta st).map Prod.fst
      = if name ∈ st.map Prod.fst then st.map Prod.fst
        else st.map Prod.fst ++ [name] := by
  induction st with
  | nil => simp [addRecord]
  | cons q rest ih =>
    rcases q with ⟨n, e⟩
    by_cases h : n = name
    · subst h
      simp [addRecord]
    · have hs : addRecord name emb meta ((n, e) :: rest)
          = (n, e) :: addRecord name emb meta rest := by
        simp [addRecord, h]
      rw [hs, List.map_cons, ih, List.map_cons]
      by_cases hm : name ∈ rest.map Prod.fst
      · simp [hm, List.mem_cons, Ne.symm h]
      · simp [hm, List.mem_cons, Ne.symm h]

lemma groupRecords_keys_single (n : String) :
    ∀ (l : List (ChunkRecord × List Q)) (st : List (String × RawEntry)),
      (∀ p ∈ l, p.1.doc_name = n) → st.map Prod.fst = [n] →
      ((l.foldl (fun st p => addRecord p.1.doc_name p.2 (metaOf p) st) st).map
        Prod.fst) = [n] := by
  intro l
  induction l with
  | nil =>
    intro st _ hst
    simpa using hst
  | cons p l' ih =>
    intro st hall hst
    rw [List.foldl_cons]
    refine ih _ (fun q hq => hall q (List.mem_cons_of_mem p hq)) ?_
    rw [addRecord_keys, hall p (List.mem_cons_self p l'), hst]
    simp

lemma docBlock_names (d : String × List String) (S O : Nat) :
    ∀ r ∈ docBlock d S O, r.doc_name = d.1 := by
  intro r hr
  simp only [docBlock] at hr
  split at hr
  · simp at hr
  · rcases List.mem_map.mp hr with ⟨p, _, hp⟩
    rw [← hp]

lemma docBlock_length (d : String × List String) (S O : Nat) :
    (docBlock d S O).length = (chunk_text d.2 S O).length := by
  simp only [docBlock]
  split
  · rename_i h
    rw [List.map_eq_nil_iff] at h
    simp [h]
  · simp

/-- C8: a build over one document with 3 chunks and one with 0 chunks
produces a store with exactly the former's entry; in general a
zero-chunk document contributes no records, and if every document has
zero chunks the builder creates no store at all
(src/utils/embed.py lines 271-289). -/
theorem C8_zero_chunk_documents_excluded (S O bs : Nat)
    (embedFn : String → List Q) (hbs : bs ≠ 0) :
    (∀ (n1 n2 : String) (t1 t2 : List String),
        (chunk_text t1 S O).length = 3 → chunk_text t2 S O = [] →
        (buildStore [(n1, t1), (n2, t2)] S O bs embedFn).map (List.map Prod.fst)
          = some [n1])
    ∧ (∀ documents : List (String × List String),
        (∀ d ∈ documents, chunk_text d.2 S O = []) →
        buildStore documents S O bs embedFn = none) := by
  constructor
  · intro n1 n2 t1 t2 h3 h0
    have hblock2 : docBlock (n2, t2) S O = [] := by
      simp [docBlock, h0]
    have hrecords : chunkRecordsOf [(n1, t1), (n2, t2)] S O = docBlock (n1, t1) S O := by
      unfold chunkRecordsOf
      rw [List.map_cons, List.map_cons, List.map_nil, List.flatten_cons,
        List.flatten_cons, List.flatten_nil, hblock2, List.append_nil,
        List.append_nil]
    have hb1len : (docBlock (n1, t1) S O).length = 3 := by
      rw [docBlock_length]
      exact h3
    have hb1ne : docBlock (n1, t1) S O ≠ [] := by
      intro hnil
      rw [hnil] at hb1len
      simp at hb1len
    have hr_ne : chunkRecordsOf [(n1, t1), (n2, t2)] S O ≠ [] := by
      rw [hrecords]
      exact hb1ne
    have hb : buildStore [(n1, t1), (n2, t2)] S O bs embedFn
        = some ((groupRecords (embedBatches embedFn bs
              (chunkRecordsOf [(n1, t1), (n2, t2)] S O))).map
            (fun p => (p.1, ⟨⟨.float32, p.2.embeddings⟩, .list p.2.chunks⟩))) := by
      simp only [buildStore]
      rw [if_neg hr_ne]
    rw [hb]
    have hmapfst : ∀ grouped : List (String × RawEntry),
        (grouped.map (fun p =>
            (p.1, (⟨⟨.float32, p.2.embeddings⟩, .list p.2.chunks⟩ : DocEntry)))).map
          Prod.fst = grouped.map Prod.fst := by
      intro grouped
      rw [List.map_map]
      rfl
    rw [Option.map_some', hmapfst]
    refine congrArg some ?_
    rw [embedBatches_eq embedFn hbs, hrecords]
    obtain ⟨r0, rest, hcons⟩ : ∃ r0 rest, docBlock (n1, t1) S O = r0 :: rest := by
      cases hdb : docBlock (n1, t1) S O with
      | nil => exact absurd hdb hb1ne
      | cons a l => exact ⟨a, l, rfl⟩
    have hn1 : ∀ r ∈ docBlock (n1, t1) S O, r.doc_name = n1 :=
      docBlock_names (n1, t1) S O
    rw [hcons, List.map_cons]
    unfold groupRecords
    rw [List.foldl_cons]
    refine groupRecords_keys_single n1 _ _ ?_ ?_
    · intro q hq
      rcases List.mem_map.mp hq with ⟨r, hr, hrq⟩
      rw [← hrq]
      exact hn1 r (hcons ▸ List.mem_cons_of_mem r0 hr)
    · have h0name : r0.doc_name = n1 := hn1 r0 (hcons ▸ List.mem_cons_self r0 rest)
      simp [addRecord, h0name]
  · intro documents hall
    have hmap : documents.map (fun d => docBlock d S O)
        = documents.map (fun _ => []) := by
      apply List.map_congr_left
      intro d hd
      simp [docBlock, hall d hd]
    have hrec : chunkRecordsOf documents S O = [] := by
      unfold chunkRecordsOf
      rw [hmap]
      simp
    simp only [buildStore]
    rw [hrec]
    simp

/-- Witness for C8: document "x" chunks into 3 single-word chunks,
document "y" is empty; the built store has exactly the entry "x", and
building from the empty document alone yields no store. -/
theorem C8_zero_chunk_documents_excluded_witness :
    ((1 : Nat) ≠ 0)
    ∧ (chunk_text ["a", "b", "c"] 1 0).length = 3
    ∧ chunk_text ([] : List String) 1 0 = []
    ∧ (buildStore [("x", ["a", "b", "c"]), ("y", [])] 1 0 1 (fun _ => [0])).map
        (List.map Prod.fst) = some ["x"]
    ∧ buildStore [("y", ([] : List String))] 1 0 1 (fun _ => [0]) = none :=
  ⟨by decide,
   by rw [chunk_text_eq_fuel]; decide,
   by decide,
   (C8_zero_chunk_documents_excluded 1 0 1 (fun _ => [0]) (by decide)).1
     "x" "y" ["a", "b", "c"] [] (by rw [chunk_text_eq_fuel]; decide) (by decide),
   (C8_zero_chunk_documents_excluded 1 0 1 (fun _ => [0]) (by decide)).2
     [("y", [])] (by
       intro d hd
       rw [List.mem_singleton.mp hd]
       decide)⟩

/-- Dict lookup on the raw per-document accumulator (the same Python
dict access as `pyLookup`, before the numpy conversion). -/
def lookupRaw (st : List (String × RawEntry)) (name : String) : Option RawEntry :=
  (st.find? (fun p => p.1 == name)).map Prod.snd

lemma lookupRaw_cons (n : String) (e : RawEntry) (rest : List (String × RawEntry))
    (qname : String) :
    lookupRaw ((n, e) :: rest) qname
      = if n = qname then some e else lookupRaw rest qname := by
  unfold lookupRaw
  by_cases h : n = qname
  · rw [List.find?_cons_of_pos _ (by simp [h]), if_pos h]
    rfl
  · rw [List.find?_cons_of_neg _ (by simp [h]), if_neg h]

lemma addRecord_lookup (name : String) (emb : List Q) (meta : ChunkMeta)
    (st : List (String × RawEntry)) (qname : String) :
    lookupRaw (addRecord name emb meta st) qname
      = if qname = name
        then some (match lookupRaw st name with
          | some e => ⟨e.embeddings ++ [emb], e.chunks ++ [meta]⟩
          | none => ⟨[emb], [meta]⟩)
        else lookupRaw st qname := by
  induction st with
  | nil =>
    rw [show addRecord name emb meta [] = [(name, ⟨[emb], [meta]⟩)] from rfl,
      lookupRaw_cons]
    by_cases h : qname = name
    · rw [if_pos h.symm, if_pos h]
      rfl
    · rw [if_neg (fun hc => h hc.symm), if_neg h]
  | cons q rest ih =>
    rcases q with ⟨n, e⟩
    by_cases hn : n = name
    · subst hn
      have ha : addRecord n emb meta ((n, e) :: rest)
          = (n, ⟨e.embeddings ++ [emb], e.chunks ++ [meta]⟩) :: rest := by
        simp [addRecord]
      rw [ha, lookupRaw_cons, lookupRaw_cons, lookupRaw_cons, if_pos rfl]
      by_cases hq : qname = n
      · rw [if_pos hq.symm, if_pos hq]
      · rw [if_neg (fun hc => hq hc.symm), if_neg hq, if_neg (fun hc => hq hc.symm)]
    · have ha : addRecord name emb meta ((n, e) :: rest)
          = (n, e) :: addRecord name emb meta rest := by
        simp [addRecord, hn]
      rw [ha, lookupRaw_cons, lookupRaw_cons, ih, lookupRaw_cons,
        if_neg hn]
      by_cases hq : n = qname
      · rw [if_pos hq, if_neg (fun hc => hn (hq.trans hc)), if_pos hq]
      · rw [if_neg hq, if_neg hq]

/-- The entry that regrouping produces for one name, as a function of
whatever was already accumulated and the records filtered to that
name. -/
def combineEntry (o : Option RawEntry) (fl : List (ChunkRecord × List Q)) :
    Option RawEntry :=
  match o with
  | some e => some ⟨e.embeddings ++ fl.map (fun p => p.2), e.chunks ++ fl.map metaOf⟩
  | none => if fl = [] then none else some ⟨fl.map (fun p => p.2), fl.map metaOf⟩

lemma combineEntry_nil (o : Option RawEntry) : combineEntry o [] = o := by
  cases o with
  | none => rfl
  | some e =>
    rcases e with ⟨emb, ch⟩
    simp [combineEntry]

lemma foldl_group_lookup (name : String) :
    ∀ (l : List (ChunkRecord × List Q)) (st : List (String × RawEntry)),
      lookupRaw (l.foldl (fun st p => addRecord p.1.doc_name p.2 (metaOf p) st) st)
          name
        = combineEntry (lookupRaw st name)
            (l.filter (fun p => p.1.doc_name == name)) := by
  intro l
  induction l with
  | nil =>
    intro st
    rw [List.foldl_nil, List.filter_nil, combineEntry_nil]
  | cons p l' ih =>
    intro st
    rw [List.foldl_cons, ih, addRecord_lookup]
    by_cases h : p.1.doc_name = name
    · rw [if_pos h.symm, List.filter_cons_of_pos (by simp [h]), h]
      cases hlk : lookupRaw st name with
      | none => simp [combineEntry]
      | some e =>
        rcases e with ⟨emb, ch⟩
        simp [combineEntry]
    · rw [if_neg (fun hc => h hc.symm), List.filter_cons_of_neg (by simp [h])]

lemma addRecord_keys_nodup (name : String) (emb : List Q) (meta : ChunkMeta)
    (st : List (String × RawEntry)) (h : (st.map Prod.fst).Nodup) :
    ((addRecord name emb meta st).map Prod.fst).Nodup := by
  rw [addRecord_keys]
  split
  · exact h
  · rename_i hmem
    rw [List.nodup_append]
    exact ⟨h, List.nodup_singleton name, by simp [hmem]⟩

lemma groupRecords_keys_nodup :
    ∀ (l : List (ChunkRecord × List Q)) (st : List (String × RawEntry)),
      (st.map Prod.fst).Nodup →
      ((l.foldl (fun st p => addRecord p.1.doc_name p.2 (metaOf p) st) st).map
        Prod.fst).Nodup := by
  intro l
  induction l with
  | nil => intro st h; exact h
  | cons p l' ih =>
    intro st h
    rw [List.foldl_cons]
    exact ih _ (addRecord_keys_nodup _ _ _ _ h)

lemma lookupRaw_of_mem_nodup :
    ∀ {st : List (String × RawEntry)} {n : String} {e : RawEntry},
      (n, e) ∈ st → (st.map Prod.fst).Nodup → lookupRaw st n = some e := by
  intro st
  induction st with
  | nil => intro n e hmem _; simp at hmem
  | cons q rest ih =>
    intro n e hmem hnd
    rcases q with ⟨qn, qe⟩
    rw [List.map_cons, List.nodup_cons] at hnd
    rcases List.mem_cons.mp hmem with hq | hrest
    · rw [lookupRaw_cons, if_pos (congrArg Prod.fst hq).symm]
      exact congrArg (fun p => some p.2) hq.symm
    · have hn_in : n ∈ rest.map Prod.fst :=
        List.mem_map_of_mem Prod.fst hrest
      rw [lookupRaw_cons, if_neg (fun hc => hnd.1 (by rw [hc]; exact hn_in))]
      exact ih hrest hnd.2

lemma filter_flatten (p : α → Bool) :
    ∀ L : List (List α), (L.flatten).filter p = (L.map (List.filter p)).flatten := by
  intro L
  induction L with
  | nil => rfl
  | cons l ls ih =>
    rw [List.flatten_cons, List.filter_append, ih, List.map_cons, List.flatten_cons]

lemma chunkRecordsOf_names (S O : Nat) (docs : List (String × List String)) :
    ∀ r ∈ chunkRecordsOf docs S O, r.doc_name ∈ docs.map Prod.fst := by
  intro r hr
  unfold chunkRecordsOf at hr
  rcases List.mem_flatten.mp hr with ⟨l, hl, hrl⟩
  rcases List.mem_map.mp hl with ⟨d, hd, hdl⟩
  rw [← hdl] at hrl
  rw [docBlock_names d S O r hrl]
  exact List.mem_map_of_mem Prod.fst hd

lemma records_filter_of_mem (S O : Nat) (n : String) :
    ∀ docs : List (String × List String), (docs.map Prod.fst).Nodup →
      ∀ d ∈ docs, d.1 = n →
      (chunkRecordsOf docs S O).filter (fun r => r.doc_name == n)
        = docBlock d S O := by
  intro docs
  induction docs with
  | nil =>
    intro _ d hd
    simp at hd
  | cons d0 rest ih =>
    intro hnd d hd hdn
    rw [List.map_cons, List.nodup_cons] at hnd
    have hsplit : chunkRecordsOf (d0 :: rest) S O
        = docBlock d0 S O ++ chunkRecordsOf rest S O := by
      unfold chunkRecordsOf
      rw [List.map_cons, List.flatten_cons]
    rw [hsplit, List.filter_append]
    rcases List.mem_cons.mp hd with hdd | hd'
    · have hd0n : d0.1 = n := by rw [← hdd]; exact hdn
      have h1 : (docBlock d0 S O).filter (fun r => r.doc_name == n)
          = docBlock d0 S O := by
        apply List.filter_eq_self.mpr
        intro r hr
        simp [docBlock_names d0 S O r hr, hd0n]
      have h2 : (chunkRecordsOf rest S O).filter (fun r => r.doc_name == n) = [] := by
        apply List.filter_eq_nil_iff.mpr
        intro r hr
        have hr_in := chunkRecordsOf_names S O rest r hr
        simp only [beq_iff_eq]
        intro hrn
        exact hnd.1 (by rw [hd0n, ← hrn]; exact hr_in)
      rw [h1, h2, List.append_nil, hdd]
    · have hn_in : n ∈ rest.map Prod.fst := by
        rw [← hdn]
        exact List.mem_map_of_mem Prod.fst hd'
      have hd0n : d0.1 ≠ n := fun hc => hnd.1 (by rw [hc]; exact hn_in)
      have h1 : (docBlock d0 S O).filter (fun r => r.doc_name == n) = [] := by
        apply List.filter_eq_nil_iff.mpr
        intro r hr
        simp only [beq_iff_eq]
        rw [docBlock_names d0 S O r hr]
        exact hd0n
      rw [h1, List.nil_append]
      exact ih hnd.2 d hd' hdn

/-- C9: in every store the builder produces (document names unique, as
keys of a Python dict), each document entry's chunk metadata is a list
whose `chunk_index` values form the contiguous sequence `0..N-1` in
storage order, where `N` is the number of embedding rows, and the i-th
embedding row is the embedding of the i-th chunk's text
(src/utils/embed.py lines 271-322). -/
theorem C9_chunk_indices_contiguous (documents : List (String × List String))
    (S O bs : Nat) (embedFn : String → List Q) (st : Store)
    (hnd : (documents.map Prod.fst).Nodup) (hbs : bs ≠ 0)
    (hst : buildStore documents S O bs embedFn = some st) :
    ∀ name entry, (name, entry) ∈ st →
      ∃ ms : List ChunkMeta, entry.chunks = .list ms
        ∧ ms.length = entry.embeddings.data.length
        ∧ ∀ i, i < ms.length →
            ∃ t : String,
              ms.getD i (.raw "") = .mdict (some (Int.ofNat i)) (some t)
              ∧ entry.embeddings.data.getD i [] = embedFn t := by
  intro name entry hmem
  simp only [buildStore] at hst
  split at hst
  · exact absurd hst (by simp)
  · have hst' := Option.some.inj hst
    rw [← hst'] at hmem
    rcases List.mem_map.mp hmem with ⟨⟨gn, ge⟩, hgmem, hgeq⟩
    have hentry : entry = ⟨⟨.float32, ge.embeddings⟩, .list ge.chunks⟩ :=
      (congrArg Prod.snd hgeq).symm
    have hknd : (((embedBatches embedFn bs (chunkRecordsOf documents S O)).foldl
        (fun st p => addRecord p.1.doc_name p.2 (metaOf p) st) []).map
          Prod.fst).Nodup :=
      groupRecords_keys_nodup _ [] (by simp)
    have hlk : lookupRaw (groupRecords (embedBatches embedFn bs
        (chunkRecordsOf documents S O))) gn = some ge :=
      lookupRaw_of_mem_nodup hgmem hknd
    rw [groupRecords, foldl_group_lookup,
      show lookupRaw [] gn = none from rfl,
      embedBatches_eq embedFn hbs, List.filter_map,
      show ((fun p : ChunkRecord × List Q => p.1.doc_name == gn)
          ∘ (fun r : ChunkRecord => (r, embedFn r.text)))
        = (fun r : ChunkRecord => r.doc_name == gn) from rfl] at hlk
    have hfl_ne : ((chunkRecordsOf documents S O).filter
        (fun r => r.doc_name == gn)) ≠ [] := by
      intro hnil
      rw [hnil] at hlk
      simp [combineEntry] at hlk
    have hge2 : ge = ⟨(((chunkRecordsOf documents S O).filter
          (fun r => r.doc_name == gn)).map (fun r => (r, embedFn r.text))).map
            (fun p => p.2),
        (((chunkRecordsOf documents S O).filter
          (fun r => r.doc_name == gn)).map (fun r => (r, embedFn r.text))).map
            metaOf⟩ := by
      have hmapne : ((chunkRecordsOf documents S O).filter
          (fun r => r.doc_name == gn)).map
            (fun r => (r, embedFn r.text)) ≠ [] := by
        intro hnil
        rw [List.map_eq_nil_iff] at hnil
        exact hfl_ne hnil
      rw [show combineEntry none (((chunkRecordsOf documents S O).filter
            (fun r => r.doc_name == gn)).map (fun r => (r, embedFn r.text)))
          = some ⟨(((chunkRecordsOf documents S O).filter
              (fun r => r.doc_name == gn)).map (fun r => (r, embedFn r.text))).map
                (fun p => p.2),
              (((chunkRecordsOf documents S O).filter
              (fun r => r.doc_name == gn)).map (fun r => (r, embedFn r.text))).map
                metaOf⟩ from by
        simp [combineEntry, hmapne]] at hlk
      exact (Option.some.inj hlk).symm
    obtain ⟨r1, hr1⟩ := List.exists_mem_of_ne_nil _ hfl_ne
    have hr1' := List.mem_filter.mp hr1
    have hr1name : r1.doc_name = gn := by
      simpa using hr1'.2
    have hgn_in : gn ∈ documents.map Prod.fst := by
      rw [← hr1name]
      exact chunkRecordsOf_names S O documents r1 hr1'.1
    rcases List.mem_map.mp hgn_in with ⟨d, hd, hd1⟩
    have hfilter := records_filter_of_mem S O gn documents hnd d hd hd1
    have hblock_ne : docBlock d S O ≠ [] := by
      rw [← hfilter]
      exact hfl_ne
    have hblock : docBlock d S O
        = ((chunk_text d.2 S O).map (String.intercalate " ")).enum.map
            (fun p => ChunkRecord.mk d.1 p.1 p.2) := by
      by_cases h : (chunk_text d.2 S O).map (String.intercalate " ") = []
      · exact absurd (by simp [docBlock, h]) hblock_ne
      · simp [docBlock, h]
    have hemb : ge.embeddings
        = ((chunk_text d.2 S O).map (String.intercalate " ")).enum.map
            (fun p => embedFn p.2) := by
      rw [hge2, hfilter, hblock]
      simp only [List.map_map]
      rfl
    have hms : ge.chunks
        = ((chunk_text d.2 S O).map (String.intercalate " ")).enum.map
            (fun p => ChunkMeta.mdict (some (Int.ofNat p.1)) (some p.2)) := by
      rw [hge2, hfilter, hblock]
      simp only [List.map_map]
      rfl
    refine ⟨ge.chunks, by rw [hentry], ?_, ?_⟩
    · rw [hentry, hms, hemb]
      simp
    · intro i hi
      have hiJ : i < ((chunk_text d.2 S O).map (String.intercalate " ")).length := by
        rw [hms] at hi
        simpa using hi
      refine ⟨((chunk_text d.2 S O).map (String.intercalate " ")).getD i "", ?_, ?_⟩
      · rw [hms, List.getD_eq_getElem _ _ (by simpa using hiJ), List.getElem_map,
          List.getElem_enum, List.getD_eq_getElem _ _ hiJ]
      · rw [hentry]
        rw [show (DocEntry.mk ⟨.float32, ge.embeddings⟩ (.list ge.chunks)).embeddings.data
            = ge.embeddings from rfl]
        rw [hemb, List.getD_eq_getElem _ _ (by simpa using hiJ), List.getElem_map,
          List.getElem_enum, List.getD_eq_getElem _ _ hiJ]

/-- Witness for C9 at a one-document, one-chunk build. -/
theorem C9_chunk_indices_contiguous_witness :
    ((([("d", ["a"])] : List (String × List String)).map Prod.fst).Nodup)
    ∧ ((1 : Nat) ≠ 0)
    ∧ (buildStore [("d", ["a"])] 1 0 1 (fun _ => [1])
        = some [("d", ⟨⟨.float32, [[1]]⟩, .list [.mdict (some 0) (some "a")]⟩)])
    ∧ (∀ name entry,
        (name, entry) ∈ [("d", (⟨⟨.float32, [[1]]⟩,
            .list [.mdict (some 0) (some "a")]⟩ : DocEntry))] →
        ∃ ms : List ChunkMeta, entry.chunks = .list ms
          ∧ ms.length = entry.embeddings.data.length
          ∧ ∀ i, i < ms.length →
              ∃ t : String,
                ms.getD i (.raw "") = .mdict (some (Int.ofNat i)) (some t)
                ∧ entry.embeddings.data.getD i [] = (fun _ => ([1] : List Q)) t) :=
  ⟨by decide, by decide, build_example_eval,
   C9_chunk_indices_contiguous [("d", ["a"])] 1 0 1 (fun _ => [1])
     [("d", ⟨⟨.float32, [[1]]⟩, .list [.mdict (some 0) (some "a")]⟩)]
     (by decide) (by decide) build_example_eval⟩

/- ## Lemmas about the trimmer -/

lemma splitNl_ne_nil (s : List Char) : splitNl s ≠ [] := by
  cases s with
  | nil => simp [splitNl]
  | cons c t =>
    rw [splitNl]
    by_cases h : c = '\n'
    · simp [h]
    · simp only [h, if_false]
      cases splitNl t with
      | nil => simp
      | cons a r => simp

lemma joinNl_splitNl (s : List Char) : joinNl (splitNl s) = s := by
  induction s with
  | nil => rfl
  | cons c t ih =>
    rw [splitNl]
    by_cases h : c = '\n'
    · rw [if_pos h]
      cases hs : splitNl t with
      | nil => exact absurd hs (splitNl_ne_nil t)
      | cons a r =>
        rw [show joinNl ([] :: a :: r) = [] ++ '\n' :: joinNl (a :: r) from rfl]
        rw [← hs, ih, h]
        rfl
    · rw [if_neg h]
      cases hs : splitNl t with
      | nil => exact absurd hs (splitNl_ne_nil t)
      | cons a r =>
        cases r with
        | nil =>
          rw [show joinNl [c :: a] = c :: a from rfl]
          have : joinNl [a] = a := rfl
          rw [hs] at ih
          rw [this] at ih
          rw [ih]
        | cons b r' =>
          rw [show joinNl ((c :: a) :: b :: r') = (c :: a) ++ '\n' :: joinNl (b :: r')
            from rfl]
          rw [hs] at ih
          rw [show joinNl (a :: b :: r') = a ++ '\n' :: joinNl (b :: r') from rfl] at ih
          rw [List.cons_append, ih]

lemma dropWhile_idem (p : Char → Bool) (l : List Char) :
    (l.dropWhile p).dropWhile p = l.dropWhile p := by
  induction l with
  | nil => rfl
  | cons c t ih =>
    by_cases h : p c = true
    · rw [List.dropWhile_cons_of_pos h, ih]
    · rw [List.dropWhile_cons_of_neg (by simp [h]),
        List.dropWhile_cons_of_neg (by simp [h])]

lemma dropWhile_head_false (p : Char → Bool) (l : List Char)
    (h : l.dropWhile p = l) :
    l = [] ∨ ∃ c t, l = c :: t ∧ p c = false := by
  cases l with
  | nil => exact Or.inl rfl
  | cons c t =>
    right
    refine ⟨c, t, rfl, ?_⟩
    by_cases hc : p c = true
    · rw [List.dropWhile_cons_of_pos hc] at h
      have hlen := congrArg List.length h
      have hle := (List.dropWhile_suffix (l := t) p).sublist.length_le
      simp at hlen
      omega
    · simp [hc]

lemma stripEnd_prefix (l : List Char) :
    (l.reverse.dropWhile pyIsSpace).reverse <+: l := by
  have hsuf : List.IsSuffix (l.reverse.dropWhile pyIsSpace) l.reverse :=
    List.dropWhile_suffix pyIsSpace
  have h := List.reverse_prefix.mpr hsuf
  simpa using h

lemma dropWhile_of_head_stable (p : Char → Bool) (y z : List Char)
    (hy : y.dropWhile p = y) (hz : z <+: y) : z.dropWhile p = z := by
  cases z with
  | nil => rfl
  | cons c t =>
    rcases dropWhile_head_false p y hy with hnil | ⟨c', t', hy2, hc'⟩
    · rw [hnil] at hz
      exact absurd (List.prefix_nil.mp hz) (by simp)
    · have hcc : c = c' := by
        rcases hz with ⟨u, hu⟩
        rw [hy2] at hu
        exact (List.cons.injEq _ _ _ _).mp (by rw [← hu]; rfl) |>.1
      rw [List.dropWhile_cons_of_neg (by simp [hcc, hc'])]

lemma pyStrip_idem (s : List Char) : pyStrip (pyStrip s) = pyStrip s := by
  unfold pyStrip
  set y := s.dropWhile pyIsSpace with hy
  have hAy : y.dropWhile pyIsSpace = y := by
    rw [hy]
    exact dropWhile_idem pyIsSpace s
  set B := (y.reverse.dropWhile pyIsSpace).reverse with hB
  have hBpre : B <+: y := stripEnd_prefix y
  have hAB : B.dropWhile pyIsSpace = B := dropWhile_of_head_stable pyIsSpace y B hAy hBpre
  rw [hAB, List.reverse_reverse, dropWhile_idem, ← hB]

lemma applyHeadRules_id (reSub : String → List Char → List Char)
    (hrules : ∀ p s, ¬ ((reSub p s).length < s.length - 8)) :
    ∀ (ps : List String) (s : List Char), applyHeadRules reSub ps s = s := by
  intro ps
  induction ps with
  | nil => intro s; rfl
  | cons p ps' ih =>
    intro s
    show (if (reSub p s).length < s.length - 8 then reSub p s
      else applyHeadRules reSub ps' s) = s
    rw [if_neg (hrules p s)]
    exact ih s

lemma applyTailPass_id (reSub : String → List Char → List Char)
    (hrules : ∀ p s, ¬ ((reSub p s).length < s.length - 8)) :
    ∀ (ps : List String) (acc : List Char × Bool),
      applyTailPass reSub ps acc = acc := by
  intro ps
  induction ps with
  | nil => intro acc; rfl
  | cons p ps' ih =>
    intro acc
    unfold applyTailPass
    rw [List.foldl_cons]
    show List.foldl _ (if (reSub p acc.1).length < acc.1.length - 8
      then (reSub p acc.1, true) else acc) ps' = acc
    rw [if_neg (hrules p acc.1)]
    exact ih acc

lemma dropWhile_all_false (p : List Char → Bool) (l : List (List Char))
    (h : ∀ x ∈ l, p x = false) : l.dropWhile p = l := by
  cases l with
  | nil => rfl
  | cons a t =>
    rw [List.dropWhile_cons_of_neg (by simp [h a (List.mem_cons_self a t)])]

lemma splitLinesAux_newline_only :
    ∀ (y : List Char), (∀ c ∈ y, isLineBreak c = true → c = '\n') →
      splitLinesAux y = splitNl y := by
  intro y
  induction y with
  | nil => intro _; rfl
  | cons c t ih =>
    intro h
    have ht : ∀ x ∈ t, isLineBreak x = true → x = '\n' :=
      fun x hx => h x (List.mem_cons_of_mem c hx)
    by_cases hb : isLineBreak c = true
    · have hcn : c = '\n' := h c (List.mem_cons_self c t) hb
      subst hcn
      cases t with
      | nil => rfl
      | cons c2 t2 =>
        have hih := ih ht
        show (if ('\n' : Char) = '\r' ∧ c2 = '\n' then [] :: splitLinesAux t2
          else [] :: splitLinesAux (c2 :: t2)) = [] :: splitNl (c2 :: t2)
        rw [if_neg (fun hcon => absurd hcon.1 (by decide)), hih]
    · have hcn : ¬ c = '\n' := fun hc => hb (by rw [hc]; decide)
      cases hq : splitNl t with
      | nil => exact absurd hq (splitNl_ne_nil t)
      | cons h0 r0 =>
        rw [splitLinesAux.eq_def, splitNl.eq_def]
        simp only []
        rw [if_neg hb, if_neg hcn, ih ht, hq]

lemma splitNl_getLast_ne_nil :
    ∀ (y : List Char), y ≠ [] → (∀ c, y.getLast? = some c → c ≠ '\n') →
      (splitNl y).getLast? ≠ some [] := by
  intro y
  induction y with
  | nil => intro h; exact absurd rfl h
  | cons c t ih =>
    intro _ hlast
    cases t with
    | nil =>
      have hc : c ≠ '\n' := hlast c rfl
      rw [splitNl, if_neg hc]
      simp [splitNl]
    | cons c2 t2 =>
      have hlast2 : ∀ x, (c2 :: t2).getLast? = some x → x ≠ '\n' := by
        intro x hx
        exact hlast x (by rw [List.getLast?_cons_cons]; exact hx)
      have ihh := ih (by simp) hlast2
      obtain ⟨h0, r0, hsp⟩ : ∃ h0 r0, splitNl (c2 :: t2) = h0 :: r0 := by
        cases hq : splitNl (c2 :: t2) with
        | nil => exact absurd hq (splitNl_ne_nil _)
        | cons h0 r0 => exact ⟨h0, r0, rfl⟩
      rw [splitNl]
      by_cases hc : c = '\n'
      · rw [if_pos hc, hsp, List.getLast?_cons_cons, ← hsp]
        exact ihh
      · rw [if_neg hc, hsp]
        cases r0 with
        | nil =>
          intro hcontra
          simp at hcontra
        | cons rr r' =>
          rw [hsp, List.getLast?_cons_cons] at ihh
          rw [List.getLast?_cons_cons]
          exact ihh

lemma pySplitlines_newline_only (y : List Char)
    (h1 : ∀ c ∈ y, isLineBreak c = true → c = '\n')
    (h2 : ∀ c, y.getLast? = some c → c ≠ '\n') :
    joinNl (pySplitlines y) = y := by
  by_cases hy : y = []
  · subst hy; rfl
  · show joinNl (if (splitLinesAux y).getLast? = some []
        then (splitLinesAux y).dropLast else splitLinesAux y) = y
    rw [splitLinesAux_newline_only y h1,
      if_neg (splitNl_getLast_ne_nil y hy h2)]
    exact joinNl_splitNl y

lemma dropWhile_head_not (p : Char → Bool) :
    ∀ (l : List Char) (c : Char), (l.dropWhile p).head? = some c → p c = false := by
  intro l
  induction l with
  | nil => intro c h; simp at h
  | cons a t ih =>
    intro c h
    by_cases ha : p a = true
    · rw [List.dropWhile_cons_of_pos ha] at h
      exact ih c h
    · rw [List.dropWhile_cons_of_neg (by simp [ha])] at h
      rw [List.head?_cons] at h
      injection h with h
      rw [← h]
      exact eq_false_of_ne_true ha

lemma pyStrip_getLast_not_newline (s : List Char) :
    ∀ c, (pyStrip s).getLast? = some c → c ≠ '\n' := by
  intro c h
  rw [show pyStrip s
      = ((s.dropWhile pyIsSpace).reverse.dropWhile pyIsSpace).reverse from rfl,
    List.getLast?_reverse] at h
  have hp := dropWhile_head_not pyIsSpace _ c h
  intro hc
  rw [hc] at hp
  exact absurd hp (by decide)

/-- C6 (amended): the trimmer is a total function (never raises) and a
pattern rule's effect is kept only when it strictly shortens the text
by more than 8 characters.  In the worst case — no rule shortens by
more than 8 characters and no keyword line sits at either end — the
result is the Python-stripped input with its interior line boundaries
re-joined by `'\n'`; when moreover every line boundary of the
stripped input already is `'\n'`, that is exactly the stripped input:
a no-op only on input with no leading/trailing whitespace and no
other line-boundary characters. -/
theorem C6_trimmer_worst_case_strips (reSub : String → List Char → List Char)
    (pyLower : List Char → List Char) (text : List Char)
    (hrules : ∀ p s, ¬ ((reSub p s).length < s.length - 8))
    (hkw : ∀ l ∈ pySplitlines (pyStrip text), containsKw pyLower l = false) :
    trim_non_content reSub pyLower text
      = pyStrip (joinNl (pySplitlines (pyStrip text)))
    ∧ ((∀ c ∈ pyStrip text, isLineBreak c = true → c = '\n') →
        trim_non_content reSub pyLower text = pyStrip text) := by
  have e1 : trim_non_content reSub pyLower text
      = pyStrip (joinNl ((((pySplitlines (pyStrip text)).dropWhile
          (containsKw pyLower)).reverse.dropWhile
            (containsKw pyLower)).reverse)) := by
    simp only [trim_non_content]
    rw [applyHeadRules_id reSub hrules, applyTailPass_id reSub hrules]
    rfl
  have e2 : trim_non_content reSub pyLower text
      = pyStrip (joinNl (pySplitlines (pyStrip text))) := by
    rw [e1, dropWhile_all_false (containsKw pyLower) _ hkw,
      dropWhile_all_false (containsKw pyLower) _
        (fun x hx => hkw x (List.mem_reverse.mp hx)),
      List.reverse_reverse]
  refine ⟨e2, fun honly => ?_⟩
  rw [e2, pySplitlines_newline_only (pyStrip text) honly
    (pyStrip_getLast_not_newline text), pyStrip_idem]

/-- C6 counterexample: the trimmer is not the identity in the worst
case.  On `" a "` it returns `"a"` — the function strips the text
first (src/utils/embed.py line 98) and the final join is stripped
again — and on `"x\r\ny"` it returns `"x\ny"`, because
`splitlines()` treats `"\r\n"` as one boundary and line 144 re-joins
with `"\n"`.  The regex substitutions cannot influence these inputs:
a rule's result is accepted only if it is more than 8 characters
shorter than the at-most-5-character text, which is impossible, so
the identity substitution used for `re.sub` here behaves as any real
regex engine would; likewise the ASCII lowering agrees with Python
`str.lower` on these ASCII inputs. -/
theorem C6_noop_counterexample :
    (trim_non_content (fun _ s => s) (fun l => l.map Char.toLower)
        (" a ".toList) = "a".toList
      ∧ (" a ".toList) ≠ "a".toList)
    ∧ (trim_non_content (fun _ s => s) (fun l => l.map Char.toLower)
        ("x\r\ny".toList) = "x\ny".toList
      ∧ ("x\r\ny".toList) ≠ "x\ny".toList) := by
  refine ⟨⟨?_, ?_⟩, ?_, ?_⟩ <;> decide

/-- Witness for the amended C6: with an identity substitution (which
never shortens) and the keyword-free text `"hello world"`, the
trimmer returns the stripped input re-joined from its `splitlines`
fields, and — since the text has no line-boundary characters other
than `'\n'` — the stripped input itself. -/
theorem C6_trimmer_worst_case_strips_witness :
    (∀ (p : String) (s : List Char),
      ¬ (((fun _ s => s : String → List Char → List Char) p s).length
          < s.length - 8))
    ∧ (∀ l ∈ pySplitlines (pyStrip ("hello world".toList)),
        containsKw (fun l => l.map Char.toLower) l = false)
    ∧ (trim_non_content (fun _ s => s) (fun l => l.map Char.toLower)
          ("hello world".toList)
        = pyStrip (joinNl (pySplitlines (pyStrip ("hello world".toList))))
      ∧ ((∀ c ∈ pyStrip ("hello world".toList), isLineBreak c = true → c = '\n') →
          trim_non_content (fun _ s => s) (fun l => l.map Char.toLower)
              ("hello world".toList)
            = pyStrip ("hello world".toList))) :=
  ⟨fun p s => by show ¬ (s.length < s.length - 8); omega,
   by decide,
   C6_trimmer_worst_case_strips (fun _ s => s) (fun l => l.map Char.toLower)
     ("hello world".toList)
     (fun p s => by show ¬ (s.length < s.length - 8); omega)
     (by decide)⟩
